/-
Verification of the TYPHON exon-repair core (evidence reconciliation and
breakpoint reconstruction pipeline).

The definitions below are shallow embeddings of the Python source:
  * typhon/modules/exon_repair/data_integration.py   (DataIntegrator.integrate_tool_data)
  * typhon/modules/exon_repair/transcript_selection.py (TranscriptSelector)
  * typhon/modules/exon_repair/exon_data_processing.py (breakpoint location)
  * typhon/modules/exon_repair/sequence_reconstruction.py (SequenceReconstructor)
  * typhon/utils/sequence_utils.py                   (merge_sequences_by_header)

Pandas tables are modelled as lists of rows; nullable (NaN-able) columns are
modelled as Option; float-valued columns that are only carried through or
compared (bit scores, identities) are modelled as Int, since no claim in
scope depends on float rounding.  File I/O and logging are out of scope;
functions that can raise are modelled as Option-valued.
-/
import Mathlib

namespace Typhon

/-! ### Python string primitives

`str.strip` / `str.rstrip` / `str.startswith` / `str.count` / `str.split`,
modelled on `List Char` data. -/

/-- Python whitespace characters (the default strip set). -/
def pyWS (c : Char) : Bool :=
  c = ' ' || c = '\t' || c = '\n' || c = '\r' || c = '\x0b' || c = '\x0c'

/-- Python `s.rstrip()`: drop trailing whitespace. -/
def pyRstrip (s : String) : String :=
  String.mk ((s.data.reverse.dropWhile pyWS).reverse)

/-- Python `s.strip()`: drop leading and trailing whitespace. -/
def pyStrip (s : String) : String :=
  String.mk (((s.data.dropWhile pyWS).reverse.dropWhile pyWS).reverse)

/-- Python `s.startswith(">")`. -/
def startsGT (s : String) : Bool :=
  match s.data with
  | [] => false
  | c :: _ => c = '>'

/-- Python `s.count(":")` (non-overlapping occurrences of a single char). -/
def colonCount (s : String) : Nat :=
  s.data.count ':'

/-- Part before the first `:` (pandas `str.split(':')` column 0). -/
def colonPart0 (s : String) : String :=
  String.mk (s.data.takeWhile (· ≠ ':'))

/-- Part between the first and second `:` (pandas `str.split(':')` column 1);
`none` when the string has no colon, as pandas pads missing parts with null. -/
def colonPart1 (s : String) : Option String :=
  match s.data.dropWhile (· ≠ ':') with
  | [] => none
  | _ :: rest => some (String.mk (rest.takeWhile (· ≠ ':')))

/-- Python `"-" in s`. -/
def hasDash (s : String) : Bool :=
  s.data.contains '-'

/-- Python `":" in s`. -/
def hasColon (s : String) : Bool :=
  s.data.contains ':'

/-- Pandas `Series.str.rsplit('-', n=1)` on one value: split at the last dash;
the second component is `none` when the value has no dash (pandas pads with
null when other rows produced two parts). -/
def rsplitDash1 (s : String) : String × Option String :=
  let r := s.data.reverse
  match r.dropWhile (· ≠ '-') with
  | [] => (s, none)
  | _ :: before => (String.mk before.reverse, some (String.mk (r.takeWhile (· ≠ '-')).reverse))

/-! ### Generic list helpers shared by several stages -/

/-- Keep the first row for each key already carrying the set of keys seen so
far; this is pandas `drop_duplicates(keep='first')`. -/
def distinctByAux {α β : Type} [DecidableEq β] (key : α → β) (seen : List β) :
    List α → List α
  | [] => []
  | a :: l =>
    if key a ∈ seen then distinctByAux key seen l
    else a :: distinctByAux key (key a :: seen) l

/-- Pandas `drop_duplicates(subset=[key], keep='first')`. -/
def distinctBy {α β : Type} [DecidableEq β] (key : α → β) (l : List α) : List α :=
  distinctByAux key [] l

/-- First-occurrence deduplication of a plain list (insertion order of a
Python dict's keys). -/
def distinctFirst {α : Type} [DecidableEq α] (l : List α) : List α :=
  distinctBy id l

/-! ### EvidenceIntegrator (`data_integration.py`, `integrate_tool_data`)

The input is the concatenation of the three per-tool call sets
(`pd.concat([longgf_df, jaffal_df, genion_df])`), each row already tagged
with its origin.  `Chimera_ID` is nullable at this point. -/

/-- One row of the concatenated tool output (`total_df` right after
`pd.concat`). -/
structure ToolCall where
  read_id : String
  chimera_id : Option String
  origin : String
deriving DecidableEq

/-- A row after `dropna(subset=['Chimera_ID'])` and `astype(str)`. -/
structure KeptRow where
  read_id : String
  chimera_id : String
  origin : String
deriving DecidableEq

/-- Rows dropped by `dropna(subset=['Chimera_ID'])`. -/
def droppedMissing (rows : List ToolCall) : List ToolCall :=
  rows.filter (fun r => r.chimera_id.isNone)

/-- Rows surviving `dropna(subset=['Chimera_ID'])`, chimera id coerced to
string. -/
def keptRows (rows : List ToolCall) : List KeptRow :=
  rows.filterMap (fun r => r.chimera_id.map (fun c => ⟨r.read_id, c, r.origin⟩))

/-- `drop_duplicates(subset=['Read_ID'], keep='first')`. -/
def dedupByRead (l : List KeptRow) : List KeptRow :=
  distinctBy KeptRow.read_id l

/-- The multi-gene quarantine side table: deduplicated rows whose chimera id
has more than one colon (`colon_counts > 1`). -/
def quarantineRows (rows : List ToolCall) : List KeptRow :=
  (dedupByRead (keptRows rows)).filter (fun r => 1 < colonCount r.chimera_id)

/-- The main table kept for further processing (`total_df.loc[~multi_gene_mask]`). -/
def mainRows (rows : List ToolCall) : List KeptRow :=
  (dedupByRead (keptRows rows)).filter (fun r => ¬ 1 < colonCount r.chimera_id)

/-- A main-table row after the GeneA/GeneB split. -/
structure GeneRow where
  read_id : String
  chimera_id : String
  origin : String
  geneA : String
  geneB : Option String
deriving DecidableEq

/-- `total_df['Chimera_ID'].str.split(':', expand=True)` followed by the
GeneA/GeneB assignment: when at least one row of the table contains a colon
the expansion has two or more columns and rows take columns 0 and 1 (null
for a missing part); otherwise the whole table gets empty-string genes. -/
def splitGenes (tbl : List KeptRow) : List GeneRow :=
  if tbl.any (fun r => hasColon r.chimera_id) then
    tbl.map (fun r =>
      ⟨r.read_id, r.chimera_id, r.origin, colonPart0 r.chimera_id, colonPart1 r.chimera_id⟩)
  else
    tbl.map (fun r => ⟨r.read_id, r.chimera_id, r.origin, "", some ""⟩)

/-! ### TranscriptSelector, gene-name extraction (`_process_blast_results`)

`blast_df['Transcript_ID'].str.rsplit('-', n=1, expand=True)`: the expansion
has two columns exactly when some transcript id of the batch contains a dash;
only in the all-dashless batch does the fallback branch assign the whole id
with an empty (not null) transcript number. -/

/-- `(Gene, Transcript_Number)` columns for a batch of transcript ids. -/
def extractGenes (ids : List String) : List (String × Option String) :=
  if ids.any hasDash then
    ids.map rsplitDash1
  else
    ids.map (fun id => (id, some ""))

/-! ### SequenceAssembler, final status (`_filter_and_assign_status`)

Chromosomes are nullable: a gene name absent from the GTF gene lookup maps
to NaN.  `np.where(a == b, ...)` compares element-wise and NaN compares
unequal to everything, including NaN. -/

/-- One row of the chimera library handed to Phase 5. -/
structure CandRow where
  read_id : String
  chimera_id : String
  origin : String
  geneA : String
  geneB : Option String
  chromA : Option String
  strandA : Option String
  chromB : Option String
  strandB : Option String
deriving DecidableEq

/-- Pandas element-wise `==` on two nullable values: NaN never compares
equal. -/
def optEqStr : Option String → Option String → Bool
  | some a, some b => a = b
  | _, _ => false

/-- `np.where(Chromosome_Gene_A == Chromosome_Gene_B, 'Intrachromosomal',
'Interchromosomal')` for one row. -/
def chromosomalStatus (r : CandRow) : String :=
  if optEqStr r.chromA r.chromB then "Intrachromosomal" else "Interchromosomal"

/-- `_filter_and_assign_status`: keep library rows whose read id is among the
passing reads, then attach the status column. -/
def filterAndAssignStatus (passing : List String) (lib : List CandRow) :
    List (CandRow × String) :=
  (lib.filter (fun r => passing.contains r.read_id)).map
    (fun r => (r, chromosomalStatus r))

/-- Lexicographic code-point comparison of character lists (the semantics
of Python's string `<`, written recursively so that it evaluates). -/
def strLtChars : List Char → List Char → Bool
  | [], [] => false
  | [], _ :: _ => true
  | _ :: _, [] => false
  | a :: as, b :: bs => if a < b then true else if b < a then false else strLtChars as bs

/-- Python string `<` (code-point lexicographic). -/
def pyStrLt (a b : String) : Bool := strLtChars a.data b.data

/-- Python string `<=`. -/
def pyStrLe (a b : String) : Bool := !(strLtChars b.data a.data)

/-! ### TranscriptSelector, ranking and selection
(`_determine_gene_order_and_selection`)

A filtered alignment hit carries the twelve BLAST columns plus the columns
attached by the earlier joins.  `Type`, `T_length`, `Tag` and `GeneB` come
from `Series.map` / `str.split` and are nullable. -/

/-- A filtered BLAST hit (row of `blast_df` entering step 3.3). -/
structure BlastRow where
  read_id : String
  transcript_id : String
  gene : String
  pct_identity : Int
  alignment_length : Int
  mismatches : Int
  gap_opens : Int
  qstart : Int
  qend : Int
  sstart : Int
  send : Int
  evalue : Int
  bitScore : Int
  chimera_id : String
  geneA : String
  geneB : Option String
  typ : Option String
  tLength : Option Int
  tag : Option String
deriving DecidableEq

/-- `np.where(Gene == GeneA, 'A', 'B')`. -/
def longgfOrder (r : BlastRow) : Char :=
  if r.gene = r.geneA then 'A' else 'B'

/-- `np.where(Tag == 'GENCODE_Primary', 'A', 'B')` (a null tag compares
unequal, hence 'B'). -/
def preferOf (r : BlastRow) : Char :=
  if r.tag = some "GENCODE_Primary" then 'A' else 'B'

/-- `Read_ID + '_' + LongGF_Order`. -/
def pickOf (r : BlastRow) : String :=
  (r.read_id.push '_').push (longgfOrder r)

/-- A hit together with the computed `LongGF_Order`, `Pick` and `Prefer`
columns. -/
structure SelRow where
  base : BlastRow
  longgf_order : Char
  pick : String
  prefer : Char
deriving DecidableEq

/-- Attach the three computed columns to a hit. -/
def addComputed (r : BlastRow) : SelRow :=
  ⟨r, longgfOrder r, pickOf r, preferOf r⟩

/-- The ranking order of
`sort_values(['Read_ID','bit.score','Prefer','T_length'],
ascending=[True,False,True,False])`: read id ascending, bit score
descending, prefer ascending, transcript length descending with nulls
last. -/
def rankLe (a b : SelRow) : Bool :=
  if a.base.read_id ≠ b.base.read_id then pyStrLt a.base.read_id b.base.read_id
  else if a.base.bitScore ≠ b.base.bitScore then decide (b.base.bitScore < a.base.bitScore)
  else if a.prefer ≠ b.prefer then decide (a.prefer < b.prefer)
  else
    match a.base.tLength, b.base.tLength with
    | some x, some y => decide (y ≤ x)
    | some _, none => true
    | none, some _ => false
    | none, none => true

/-- Rows with computed columns, in ranked order (pandas multi-key sorts are
stable lexicographic sorts). -/
def sortRanked (rows : List BlastRow) : List SelRow :=
  List.insertionSort (fun a b => rankLe a b = true) (rows.map addComputed)

/-- First non-null entry of a column (`GroupBy.first` skips nulls). -/
def firstSome {α : Type} (l : List (Option α)) : Option α :=
  (l.filterMap id).head?

/-- Pandas `GroupBy.first()` on one `Pick` group: for every column
independently, the first non-null value in group order; never-null columns
therefore come from the leading row. -/
def aggGroup (g : List SelRow) : Option SelRow :=
  match g with
  | [] => none
  | r :: _ =>
    some { r with base := { r.base with
      geneB := firstSome (g.map (fun t => t.base.geneB)),
      typ := firstSome (g.map (fun t => t.base.typ)),
      tLength := firstSome (g.map (fun t => t.base.tLength)),
      tag := firstSome (g.map (fun t => t.base.tag)) } }

/-- `blast_df.groupby('Pick').first().reset_index()`: group keys ascending,
rows inside each group in ranked order, aggregated per column. -/
def dataSubset (rows : List BlastRow) : List SelRow :=
  let s := sortRanked rows
  (List.insertionSort (fun a b : String => pyStrLe a b = true)
      (distinctFirst (s.map SelRow.pick))).filterMap
    (fun k => aggGroup (s.filter (fun t => t.pick = k)))

/-- Retention: keep rows whose read id occurs more than once in the
per-pick selection
(`Data_subset['Read_ID'].isin(Read_ID[duplicated].unique())`). -/
def removeSingles (rows : List BlastRow) : List SelRow :=
  let ds := dataSubset rows
  ds.filter (fun s => 2 ≤ ds.countP (fun t => t.base.read_id = s.base.read_id))

/-- The final ordering `sort_values(['Read_ID','q.start'],
ascending=[False,True])`. -/
def finalLe (a b : SelRow) : Bool :=
  if a.base.read_id ≠ b.base.read_id then pyStrLt b.base.read_id a.base.read_id
  else decide (a.base.qstart ≤ b.base.qstart)

/-- Retained rows in final order. -/
def sortedFinal (rows : List BlastRow) : List SelRow :=
  List.insertionSort (fun a b => finalLe a b = true) (removeSingles rows)

/-- `['A','B'] * (n // 2) + ['A'] * (n % 2)`: the strict A/B alternation. -/
def altLabelsFrom (c : Char) : Nat → List Char
  | 0 => []
  | n + 1 => c :: altLabelsFrom (if c = 'A' then 'B' else 'A') n

/-- Final Phase-3 output: retained rows in final order with the positional
`Actual_order` relabeling. -/
def orderedResults (rows : List BlastRow) : List (SelRow × Char) :=
  (sortedFinal rows).zip (altLabelsFrom 'A' (sortedFinal rows).length)

/-! ### BreakpointLocator (`exon_data_processing.py`)

One `(Read_ID, Transcript_ID)` group of the transcript-exon join is a list
of exon rows.  `calculate_transcript_coordinates` sorts the group by
`exon_number`, picks the branch from the first row's `Actual_order`, and
computes the running coordinates; `select_breakpoint_exons` takes the
`idxmin` of `Abs_exon_distance`, which is the first row attaining the
minimum in group order. -/

/-- One row of a transcript-exon group. -/
structure ExonRow where
  read_id : String
  transcript_id : String
  exon_number : Nat
  chrom_start : Int
  chrom_end : Int
  s_start : Int
  s_end : Int
  order : Char
deriving DecidableEq

/-- `Exon_length = abs(start - end)`. -/
def exonLength (e : ExonRow) : Int :=
  |e.chrom_start - e.chrom_end|

/-- `group.sort_values('exon_number')`. -/
def sortGroup (g : List ExonRow) : List ExonRow :=
  List.insertionSort (fun a b => a.exon_number ≤ b.exon_number) g

/-- `group['Actual_order'].iloc[0] == 'B'` (the B branch is taken from the
first row of the sorted group; an empty group never reaches the branch). -/
def groupIsB (g : List ExonRow) : Bool :=
  match g with
  | [] => false
  | e :: _ => e.order = 'B'

/-- Running cumulative exon lengths with the role-dependent breakpoint
distance: for role B, `|previous cumulative + 1 - s.start|`; otherwise
`|this cumulative - s.end|`.  `acc` is the cumulative length before the
current row. -/
def withDistances (isB : Bool) (acc : Int) : List ExonRow → List (ExonRow × Int)
  | [] => []
  | e :: rest =>
    let c := acc + exonLength e
    let d := if isB then |acc + 1 - e.s_start| else |c - e.s_end|
    (e, d) :: withDistances isB c rest

/-- The per-group pipeline of `calculate_transcript_coordinates`: sort by
exon number, branch on the first row's role, compute distances. -/
def processGroup (g : List ExonRow) : List (ExonRow × Int) :=
  let gs := sortGroup g
  withDistances (groupIsB gs) 0 gs

/-- Pandas `idxmin`: the first row attaining the minimal value, in row
order. -/
def idxminRow : List (ExonRow × Int) → Option (ExonRow × Int)
  | [] => none
  | x :: rest =>
    match idxminRow rest with
    | none => some x
    | some y => if x.2 ≤ y.2 then some x else some y

/-- `select_breakpoint_exons` on one `(Read_ID, role)` group. -/
def selectBreakpoint (g : List ExonRow) : Option (ExonRow × Int) :=
  idxminRow (processGroup g)

/-- Spec-side running sum: total exon length of the first `i` rows. -/
def prefixLen (g : List ExonRow) (i : Nat) : Int :=
  ((g.take i).map exonLength).sum

/-! ### merge_sequences_by_header (`sequence_utils.py`)

The file is a list of lines (without trailing newlines).  The Python
function folds over the lines keeping an insertion-ordered dict and the
current header; a sequence line before any header raises `KeyError`
(modelled as `none`). -/

/-- Lookup in an insertion-ordered association list (Python `dict`
access). -/
def alookup : List (String × String) → String → Option String
  | [], _ => none
  | (k, v) :: rest, key => if k = key then some v else alookup rest key

/-- `data[key] += s`: extend the value at `key` in place. -/
def updAssoc : List (String × String) → String → String → List (String × String)
  | [], _, _ => []
  | (k, v) :: rest, key, s =>
    if k = key then (k, v ++ s) :: rest else (k, v) :: updAssoc rest key s

/-- The fold state: the dict built so far and the current header. -/
structure MergeState where
  data : List (String × String)
  current : String
deriving DecidableEq

/-- One line of `merge_sequences_by_header`'s loop.  A header line becomes
the current header and is inserted with an empty sequence if new; any other
line is stripped and appended to the current header's entry, failing
(`KeyError`) when no header has been seen. -/
def mergeStep (st : Option MergeState) (line : String) : Option MergeState :=
  match st with
  | none => none
  | some st =>
    if startsGT line then
      let h := pyRstrip line
      if (alookup st.data h).isSome then some ⟨st.data, h⟩
      else some ⟨st.data ++ [(h, "")], h⟩
    else
      if (alookup st.data st.current).isSome then
        some ⟨updAssoc st.data st.current (pyStrip line), st.current⟩
      else none

/-- Run the loop over a list of lines. -/
def runMerge (st : Option MergeState) (lines : List String) : Option MergeState :=
  lines.foldl mergeStep st

/-- `merge_sequences_by_header` up to the dict: the merged
header-to-sequence table in insertion order, or `none` on `KeyError`. -/
def mergeLines (lines : List String) : Option (List (String × String)) :=
  (runMerge (some ⟨[], ""⟩) lines).map MergeState.data

/-- Writing the merged dict back out: `f"{header}\n{sequence}\n"` for each
entry, as a list of lines. -/
def renderMerged (m : List (String × String)) : List String :=
  m.flatMap (fun p => [p.1, p.2])

/-- The whole file-to-file merge. -/
def mergeFile (lines : List String) : Option (List String) :=
  (mergeLines lines).map renderMerged

/-- Line normalization performed by one merge pass: headers are
right-stripped, sequence lines fully stripped. -/
def normLine (l : String) : String :=
  if startsGT l then pyRstrip l else pyStrip l

/-- No line of the file turns into a header when stripped: every line
either is a header or strips to a non-header.  Real extraction outputs
(nucleotide lines) satisfy this. -/
def noHiddenHeader (lines : List String) : Bool :=
  lines.all (fun l => startsGT l || !startsGT (pyStrip l))

/-- Folding a second dict into a first: existing keys get their sequences
appended, new keys are appended at the end.  This is what the second merge
pass computes on the concatenation of two already-merged files. -/
def mergeInto (d : List (String × String)) : List (String × String) → List (String × String)
  | [] => d
  | (k, v) :: rest =>
    if (alookup d k).isSome then mergeInto (updAssoc d k v) rest
    else mergeInto (d ++ [(k, v)]) rest

/-- `_merge_sequences_multistep` steps 1-4: merge the role-A file, merge
the role-B file, concatenate (role A first), merge again. -/
def mergeMultistep (fA fB : List String) : Option (List (String × String)) := do
  let mA ← mergeLines fA
  let mB ← mergeLines fB
  mergeLines (renderMerged mA ++ renderMerged mB)

/-- Invariant of every dict produced by a merge pass over a file with no
hidden headers: keys are distinct right-stripped header lines, values are
stripped non-header text. -/
def goodDict (d : List (String × String)) : Prop :=
  (d.map Prod.fst).Nodup ∧
  ∀ p ∈ d, startsGT p.1 = true ∧ pyRstrip p.1 = p.1 ∧
    pyStrip p.2 = p.2 ∧ startsGT p.2 = false

/-- Modelled from the spec's words (for comparison with the source's
`rsplit` behaviour): a transcript id has a trailing numeric suffix when it
contains a dash and everything after the last dash is one or more
digits. -/
def specTrailingNumericSuffix (s : String) : Bool :=
  hasDash s &&
    (let suf := s.data.reverse.takeWhile (· ≠ '-')
     !suf.isEmpty && suf.all Char.isDigit)

/-! ### Concrete rows used by witnesses and counterexamples -/

/-- A top-ranked hit with a null annotation tag and transcript length 300
(`GroupBy.first` example, read `r`, role A). -/
def exHit1 : BlastRow :=
  ⟨"r", "G-201", "G", 97, 500, 1, 0, 1, 500, 1, 500, 0, 100, "G:H", "G", some "H",
    some "protein_coding", some 300, none⟩

/-- A lower-ranked hit for the same read and role carrying the
`GENCODE_Primary` tag and transcript length 500. -/
def exHit2 : BlastRow :=
  ⟨"r", "G-202", "G", 95, 400, 2, 0, 1, 400, 1, 400, 0, 50, "G:H", "G", some "H",
    some "protein_coding", some 500, some "GENCODE_Primary"⟩

/-- Read `r`, role A hit (role-completeness witness). -/
def exSelA : BlastRow :=
  ⟨"r", "G-201", "G", 97, 250, 1, 0, 1, 250, 1, 250, 0, 100, "G:H", "G", some "H",
    none, none, none⟩

/-- Read `r`, role B hit (role-completeness witness). -/
def exSelB : BlastRow :=
  ⟨"r", "H-201", "H", 96, 250, 1, 0, 251, 500, 1, 250, 0, 90, "G:H", "G", some "H",
    none, none, none⟩

/-- Read `s`, a single-role read dropped by retention. -/
def exSelC : BlastRow :=
  ⟨"s", "G-201", "G", 97, 250, 1, 0, 1, 250, 1, 250, 0, 80, "G:H", "G", some "H",
    none, none, none⟩

/-- The spec's section-8 breakpoint scenario: role-A exons with cumulative
lengths 100, 220, 300 and subject end 210; exon 2 must win. -/
def exBpGroup : List ExonRow :=
  [⟨"R1", "T", 1, 0, 100, 0, 210, 'A'⟩,
   ⟨"R1", "T", 2, 0, 120, 0, 210, 'A'⟩,
   ⟨"R1", "T", 3, 0, 80, 0, 210, 'A'⟩]

/-! ## Theorems -/

/-! ### General helpers -/

theorem string_mk_data (s : String) : String.mk s.data = s := by
  cases s; rfl

theorem string_data_inj {s t : String} (h : s.data = t.data) : s = t := by
  cases s; cases t; exact congrArg String.mk h

theorem string_empty_append (s : String) : "" ++ s = s := by
  cases s; rfl

theorem length_filter_add_length_filter_not {α : Type} (p : α → Bool) (l : List α) :
    (l.filter p).length + (l.filter (fun a => !(p a))).length = l.length := by
  induction l with
  | nil => rfl
  | cons a t ih =>
    cases h : p a <;> simp [List.filter_cons, h] <;> omega

theorem distinctByAux_length_le {α β : Type} [DecidableEq β] (key : α → β) :
    ∀ (l : List α) (seen : List β), (distinctByAux key seen l).length ≤ l.length := by
  intro l
  induction l with
  | nil => intro seen; exact Nat.le_refl 0
  | cons a t ih =>
    intro seen
    by_cases h : key a ∈ seen
    · simp only [distinctByAux, if_pos h, List.length_cons]
      exact Nat.le_succ_of_le (ih seen)
    · simp only [distinctByAux, if_neg h, List.length_cons]
      exact Nat.succ_le_succ (ih (key a :: seen))

theorem distinctByAux_sublist {α β : Type} [DecidableEq β] (key : α → β) :
    ∀ (l : List α) (seen : List β), (distinctByAux key seen l).Sublist l := by
  intro l
  induction l with
  | nil => intro seen; exact List.Sublist.refl []
  | cons a t ih =>
    intro seen
    by_cases h : key a ∈ seen
    · simp only [distinctByAux, if_pos h]
      exact (ih seen).cons a
    · simp only [distinctByAux, if_neg h]
      exact (ih (key a :: seen)).cons₂ a

theorem distinctByAux_key_nodup {α β : Type} [DecidableEq β] (key : α → β) :
    ∀ (l : List α) (seen : List β),
      ((distinctByAux key seen l).map key).Nodup ∧
      ∀ b ∈ (distinctByAux key seen l).map key, b ∉ seen := by
  intro l
  induction l with
  | nil => intro seen; exact ⟨List.nodup_nil, by simp [distinctByAux]⟩
  | cons a t ih =>
    intro seen
    by_cases h : key a ∈ seen
    · simpa only [distinctByAux, if_pos h] using ih seen
    · obtain ⟨hnd, hns⟩ := ih (key a :: seen)
      refine ⟨?_, ?_⟩
      · simp only [distinctByAux, if_neg h, List.map_cons, List.nodup_cons]
        exact ⟨fun hmem => (hns _ hmem) (List.mem_cons_self _ _), hnd⟩
      · intro b hb
        simp only [distinctByAux, if_neg h, List.map_cons, List.mem_cons] at hb
        rcases hb with rfl | hb
        · exact h
        · intro hbs; exact (hns b hb) (List.mem_cons_of_mem _ hbs)

/-! ### C6: gene-name extraction from transcript ids -/

theorem rsplitDash1_spec (s : String) (h : hasDash s = true) :
    ∃ pre suf : List Char, s.data = pre ++ '-' :: suf ∧ '-' ∉ suf ∧
      rsplitDash1 s = (String.mk pre, some (String.mk suf)) := by
  have hmem : '-' ∈ s.data.reverse := by
    simp only [hasDash] at h
    simpa using h
  set q : Char → Bool := (fun c => c ≠ '-') with hq
  have hdrop : s.data.reverse.dropWhile q ≠ [] := by
    intro hnil
    have := (List.dropWhile_eq_nil_iff).mp hnil '-' hmem
    simp [hq] at this
  obtain ⟨c, before, hcb⟩ := List.exists_cons_of_ne_nil hdrop
  have hc : c = '-' := by
    have hhead : ¬ q c = true := by
      have := List.head_dropWhile_not q s.data.reverse
        (by simpa [hcb] using hdrop)
      simpa [hcb] using this
    simpa [hq] using hhead
  subst hc
  have hsplit : s.data.reverse.takeWhile q ++ '-' :: before = s.data.reverse := by
    rw [← hcb]; exact List.takeWhile_append_dropWhile q s.data.reverse
  refine ⟨before.reverse, (s.data.reverse.takeWhile q).reverse, ?_, ?_, ?_⟩
  · have := congrArg List.reverse hsplit
    simpa [List.reverse_append] using this.symm
  · intro hin
    have : '-' ∈ s.data.reverse.takeWhile q := by simpa using hin
    have := List.mem_takeWhile_imp this
    simp [hq] at this
  · simp only [rsplitDash1, hcb]

theorem C6_counterexample :
    extractGenes ["Foo-bar"] = [("Foo", some "bar")] ∧
    specTrailingNumericSuffix "Foo-bar" = false ∧
    ("Foo" : String) ≠ "Foo-bar" :=
  ⟨by decide, by decide, by decide⟩

/-- C6 (amended): for every batch of transcript ids, the gene name of each
id is the part before its last hyphen whenever the id contains a hyphen
(regardless of whether the trailing part is numeric), and the whole id
otherwise. -/
theorem C6_gene_extraction (ids : List String) :
    List.Forall₂
      (fun (p : String × Option String) (id : String) =>
        (hasDash id = true →
          ∃ pre suf : List Char, id.data = pre ++ '-' :: suf ∧ '-' ∉ suf ∧
            (p.1).data = pre) ∧
        (hasDash id = false → p.1 = id))
      (extractGenes ids) ids := by
  unfold extractGenes
  by_cases hany : ids.any hasDash
  · rw [if_pos hany]
    refine (List.forall₂_map_left_iff).mpr ((List.forall₂_same).mpr ?_)
    intro id _
    constructor
    · intro hd
      obtain ⟨pre, suf, h1, h2, h3⟩ := rsplitDash1_spec id hd
      exact ⟨pre, suf, h1, h2, by rw [h3]⟩
    · intro hnd
      have hdw : id.data.reverse.dropWhile (fun c => c ≠ '-') = [] := by
        rw [List.dropWhile_eq_nil_iff]
        intro x hx
        simp only [ne_eq, decide_eq_true_eq]
        intro hxdash
        subst hxdash
        simp only [hasDash] at hnd
        have : '-' ∈ id.data := by simpa using hx
        simp [this] at hnd
      simp only [rsplitDash1, hdw]
  · rw [if_neg hany]
    refine (List.forall₂_map_left_iff).mpr ((List.forall₂_same).mpr ?_)
    intro id hid
    constructor
    · intro hd
      exact absurd (List.any_eq_true.mpr ⟨id, hid, hd⟩) hany
    · intro _; rfl

/-! ### C10: chromosomal status is total and defaults to Interchromosomal -/

/-- C10: every row emitted by `_filter_and_assign_status` with a missing
chromosome on either side (including both) is classified Interchromosomal;
Intrachromosomal occurs exactly when both chromosomes are present and
equal. -/
theorem C10_chromosomal_status (passing : List String) (lib : List CandRow)
    (r : CandRow) (st : String) (h : (r, st) ∈ filterAndAssignStatus passing lib) :
    ((r.chromA = none ∨ r.chromB = none) → st = "Interchromosomal") ∧
    (st = "Intrachromosomal" ↔ ∃ c, r.chromA = some c ∧ r.chromB = some c) := by
  have hst : st = chromosomalStatus r := by
    simp only [filterAndAssignStatus, List.mem_map, List.mem_filter] at h
    obtain ⟨r', _, heq⟩ := h
    have h1 : r' = r := congrArg Prod.fst heq
    have h2 : chromosomalStatus r' = st := congrArg Prod.snd heq
    rw [← h2, h1]
  subst hst
  unfold chromosomalStatus optEqStr
  constructor
  · rintro (hA | hB)
    · rw [hA]
      cases r.chromB <;> simp
    · rw [hB]
      cases r.chromA <;> simp
  · cases hA : r.chromA with
    | none => simp
    | some a =>
      cases hB : r.chromB with
      | none => simp
      | some b =>
        by_cases hab : a = b
        · subst hab
          simp
        · simp only [hab, decide_False, Bool.false_eq_true, if_false,
            Option.some.injEq]
          constructor
          · intro h; exact absurd h (by decide)
          · rintro ⟨c, rfl, hc⟩; exact absurd hc.symm hab

theorem C10_witness :
    ((⟨"r1", "G:H", "LongGF", "G", some "H", none, none, none, none⟩ : CandRow),
        chromosomalStatus ⟨"r1", "G:H", "LongGF", "G", some "H", none, none, none, none⟩) ∈
      filterAndAssignStatus ["r1"]
        [⟨"r1", "G:H", "LongGF", "G", some "H", none, none, none, none⟩] ∧
    chromosomalStatus ⟨"r1", "G:H", "LongGF", "G", some "H", none, none, none, none⟩ =
      "Interchromosomal" :=
  ⟨by decide,
    (C10_chromosomal_status ["r1"]
      [⟨"r1", "G:H", "LongGF", "G", some "H", none, none, none, none⟩]
      ⟨"r1", "G:H", "LongGF", "G", some "H", none, none, none, none⟩
      (chromosomalStatus ⟨"r1", "G:H", "LongGF", "G", some "H", none, none, none, none⟩)
      (by decide)).1 (Or.inl rfl)⟩

theorem C6_witness :
    List.Forall₂
      (fun (p : String × Option String) (id : String) =>
        (hasDash id = true →
          ∃ pre suf : List Char, id.data = pre ++ '-' :: suf ∧ '-' ∉ suf ∧
            (p.1).data = pre) ∧
        (hasDash id = false → p.1 = id))
      (extractGenes ["Cd68-201", "NoDash"]) ["Cd68-201", "NoDash"] :=
  C6_gene_extraction ["Cd68-201", "NoDash"]

/-! ### C5: malformed chimera ids in the gene split -/

theorem C5_counterexample :
    (splitGenes [⟨"r1", "AB", "t"⟩, ⟨"r2", "X:Y", "t"⟩]).map
        (fun g => (g.geneA, g.geneB)) = [("AB", none), ("X", some "Y")] ∧
    colonCount "AB" = 0 ∧ ("AB" : String) ≠ "" ∧ (none : Option String) ≠ some "" :=
  ⟨by decide, by decide, by decide, by decide⟩

/-- C5 (amended): the gene split never drops a row and never fails; a row
whose chimera id has no colon gets `GeneA` set to the whole chimera id and
`GeneB` set to null when any row of the table contains a colon, and both
genes set to the empty string only when no row of the table contains a
colon. -/
theorem C5_malformed_split (tbl : List KeptRow) :
    List.Forall₂
      (fun (out : GeneRow) (r : KeptRow) =>
        out.read_id = r.read_id ∧ out.chimera_id = r.chimera_id ∧
        (colonCount r.chimera_id = 0 →
          (tbl.any (fun t => hasColon t.chimera_id) = true →
            out.geneA = r.chimera_id ∧ out.geneB = none) ∧
          (tbl.any (fun t => hasColon t.chimera_id) = false →
            out.geneA = "" ∧ out.geneB = some "")))
      (splitGenes tbl) tbl := by
  unfold splitGenes
  by_cases hany : tbl.any (fun t => hasColon t.chimera_id)
  · rw [if_pos hany]
    refine (List.forall₂_map_left_iff).mpr ((List.forall₂_same).mpr ?_)
    intro r _
    refine ⟨rfl, rfl, ?_⟩
    intro hzero
    have hnot : ':' ∉ r.chimera_id.data := List.count_eq_zero.mp hzero
    refine ⟨fun _ => ⟨?_, ?_⟩, fun hfalse => absurd hany (by simp [hfalse])⟩
    · show colonPart0 r.chimera_id = r.chimera_id
      unfold colonPart0
      rw [List.takeWhile_eq_self_iff.mpr, string_mk_data]
      intro x hx
      simp only [ne_eq, decide_eq_true_eq]
      intro hcolon; subst hcolon; exact hnot hx
    · show colonPart1 r.chimera_id = none
      unfold colonPart1
      have hdw : r.chimera_id.data.dropWhile (fun c => c ≠ ':') = [] := by
        rw [List.dropWhile_eq_nil_iff]
        intro x hx
        simp only [ne_eq, decide_eq_true_eq]
        intro hcolon; subst hcolon; exact hnot hx
      rw [hdw]
  · rw [if_neg hany]
    refine (List.forall₂_map_left_iff).mpr ((List.forall₂_same).mpr ?_)
    intro r _
    exact ⟨rfl, rfl, fun _ =>
      ⟨fun htrue => absurd htrue hany, fun _ => ⟨rfl, rfl⟩⟩⟩

theorem C5_witness :
    colonCount "AB" = 0 ∧
    List.Forall₂
      (fun (out : GeneRow) (r : KeptRow) =>
        out.read_id = r.read_id ∧ out.chimera_id = r.chimera_id ∧
        (colonCount r.chimera_id = 0 →
          (([⟨"r1", "AB", "t"⟩, ⟨"r2", "X:Y", "t"⟩] : List KeptRow).any
              (fun t => hasColon t.chimera_id) = true →
            out.geneA = r.chimera_id ∧ out.geneB = none) ∧
          (([⟨"r1", "AB", "t"⟩, ⟨"r2", "X:Y", "t"⟩] : List KeptRow).any
              (fun t => hasColon t.chimera_id) = false →
            out.geneA = "" ∧ out.geneB = some "")))
      (splitGenes [⟨"r1", "AB", "t"⟩, ⟨"r2", "X:Y", "t"⟩])
      [⟨"r1", "AB", "t"⟩, ⟨"r2", "X:Y", "t"⟩] :=
  ⟨by decide, C5_malformed_split [⟨"r1", "AB", "t"⟩, ⟨"r2", "X:Y", "t"⟩]⟩

/-! ### C3: quarantine of multi-gene fusions and row conservation -/

theorem dropped_add_kept_length (rows : List ToolCall) :
    (droppedMissing rows).length + (keptRows rows).length = rows.length := by
  induction rows with
  | nil => rfl
  | cons r t ih =>
    cases h : r.chimera_id with
    | none =>
      simp only [droppedMissing, keptRows, List.filter_cons, List.filterMap_cons, h,
        Option.isNone_none, Option.map_none', decide_True, if_true] at ih ⊢
      simpa [List.length_cons, Nat.add_right_comm] using congrArg Nat.succ ih
    | some c =>
      simp only [droppedMissing, keptRows, List.filter_cons, List.filterMap_cons, h,
        Option.isNone_some, Option.map_some', decide_False, if_false] at ih ⊢
      simpa [List.length_cons, ← Nat.add_assoc] using congrArg Nat.succ ih

theorem C3_counterexample :
    (⟨"r1", "A:B:C", "JaffaL"⟩ : KeptRow) ∈
        keptRows [⟨"r1", some "G1:G2", "LongGF"⟩, ⟨"r1", some "A:B:C", "JaffaL"⟩] ∧
    1 < colonCount "A:B:C" ∧
    (⟨"r1", "A:B:C", "JaffaL"⟩ : KeptRow) ∉
        quarantineRows [⟨"r1", some "G1:G2", "LongGF"⟩, ⟨"r1", some "A:B:C", "JaffaL"⟩] ∧
    (mainRows [⟨"r1", some "G1:G2", "LongGF"⟩, ⟨"r1", some "A:B:C", "JaffaL"⟩]).length +
      (quarantineRows [⟨"r1", some "G1:G2", "LongGF"⟩, ⟨"r1", some "A:B:C", "JaffaL"⟩]).length +
      (droppedMissing [⟨"r1", some "G1:G2", "LongGF"⟩, ⟨"r1", some "A:B:C", "JaffaL"⟩]).length ≠
      ([⟨"r1", some "G1:G2", "LongGF"⟩, ⟨"r1", some "A:B:C", "JaffaL"⟩] : List ToolCall).length :=
  ⟨by decide, by decide, by decide, by decide⟩

/-- C3 (amended): every row of the deduplicated table whose chimera id has
two or more colons lands in the quarantine table and not in the main table;
and rows conserve once rows dropped as read-id duplicates are counted:
main + quarantine + dropped-for-missing-id + dropped-as-duplicate equals
the total input rows. -/
theorem C3_quarantine_conservation (rows : List ToolCall) :
    (∀ r ∈ dedupByRead (keptRows rows), 1 < colonCount r.chimera_id →
        r ∈ quarantineRows rows ∧ r ∉ mainRows rows) ∧
    (dedupByRead (keptRows rows)).length ≤ (keptRows rows).length ∧
    (mainRows rows).length + (quarantineRows rows).length + (droppedMissing rows).length +
      ((keptRows rows).length - (dedupByRead (keptRows rows)).length) = rows.length := by
  refine ⟨?_, distinctByAux_length_le _ _ _, ?_⟩
  · intro r hr hcol
    constructor
    · exact List.mem_filter.mpr ⟨hr, by simpa using hcol⟩
    · intro hmem
      have h2 := (List.mem_filter.mp hmem).2
      have : ¬ 1 < colonCount r.chimera_id := of_decide_eq_true h2
      exact this hcol
  · have h1 := dropped_add_kept_length rows
    have h3 := distinctByAux_length_le KeptRow.read_id (keptRows rows) []
    have h2 : (quarantineRows rows).length + (mainRows rows).length =
        (dedupByRead (keptRows rows)).length := by
      unfold quarantineRows mainRows
      simp only [decide_not]
      exact length_filter_add_length_filter_not _ _
    unfold dedupByRead distinctBy at h2 ⊢
    omega

theorem C3_witness :
    ((⟨"r1", "A:B:C", "LongGF"⟩ : KeptRow) ∈
        dedupByRead (keptRows [⟨"r1", some "A:B:C", "LongGF"⟩]) ∧
      1 < colonCount "A:B:C") ∧
    ((⟨"r1", "A:B:C", "LongGF"⟩ : KeptRow) ∈ quarantineRows [⟨"r1", some "A:B:C", "LongGF"⟩] ∧
      (⟨"r1", "A:B:C", "LongGF"⟩ : KeptRow) ∉ mainRows [⟨"r1", some "A:B:C", "LongGF"⟩]) ∧
    (mainRows [⟨"r1", some "A:B:C", "LongGF"⟩]).length +
      (quarantineRows [⟨"r1", some "A:B:C", "LongGF"⟩]).length +
      (droppedMissing [⟨"r1", some "A:B:C", "LongGF"⟩]).length +
      ((keptRows [⟨"r1", some "A:B:C", "LongGF"⟩]).length -
        (dedupByRead (keptRows [⟨"r1", some "A:B:C", "LongGF"⟩])).length) =
      ([⟨"r1", some "A:B:C", "LongGF"⟩] : List ToolCall).length :=
  ⟨⟨by decide, by decide⟩,
    (C3_quarantine_conservation [⟨"r1", some "A:B:C", "LongGF"⟩]).1 _ (by decide) (by decide),
    (C3_quarantine_conservation [⟨"r1", some "A:B:C", "LongGF"⟩]).2.2⟩

/-! ### C2: the per-group selection is not a whole-row selection -/

/-- C2: `groupby('Pick').first()` takes the first non-null value per
column, not the whole top-ranked row.  On a group whose top-ranked hit
carries a null tag, the emitted "row" combines the top hit's transcript id
with the tag and transcript length of the lower-ranked hit, so it is not
equal to the top-ranked row of the group. -/
theorem C2_groupby_first_mixes_fields :
    (sortRanked [exHit1, exHit2]).map SelRow.base = [exHit1, exHit2] ∧
    exHit1.tag = none ∧ exHit2.tag = some "GENCODE_Primary" ∧
    (dataSubset [exHit1, exHit2]).map
        (fun s => (s.base.transcript_id, s.base.tag, s.base.tLength)) =
      [("G-201", some "GENCODE_Primary", some 300)] ∧
    dataSubset [exHit1, exHit2] ≠ [addComputed exHit1] :=
  ⟨by decide, rfl, rfl, by decide, by decide⟩

/-! ### C9 and the merge lemmas: merge_sequences_by_header -/

theorem alookup_eq_none_iff (d : List (String × String)) (k : String) :
    alookup d k = none ↔ k ∉ d.map Prod.fst := by
  induction d with
  | nil => simp [alookup]
  | cons p rest ih =>
    by_cases h : p.1 = k
    · simp [alookup, h]
    · simp [alookup, h, ih, Ne.symm h]

theorem runMerge_none (lines : List String) : runMerge none lines = none := by
  induction lines with
  | nil => rfl
  | cons l rest ih => simpa [runMerge, List.foldl_cons, mergeStep] using ih

theorem alookup_isSome_iff (d : List (String × String)) (k : String) :
    (alookup d k).isSome = true ↔ k ∈ d.map Prod.fst := by
  rcases h : alookup d k with _ | v
  · simpa [h] using (alookup_eq_none_iff d k).mp h
  · simp only [Option.isSome_some, true_iff]
    by_contra hmem
    rw [(alookup_eq_none_iff d k).mpr hmem] at h
    cases h

theorem alookup_append_of_none {d : List (String × String)} {k : String}
    (e : List (String × String)) (h : alookup d k = none) :
    alookup (d ++ e) k = alookup e k := by
  induction d with
  | nil => rfl
  | cons p rest ih =>
    by_cases hp : p.1 = k
    · simp [alookup, hp] at h
    · simp only [alookup, if_neg hp] at h
      simpa [alookup, hp] using ih h

theorem alookup_append_of_some {d : List (String × String)} {k : String} {v : String}
    (e : List (String × String)) (h : alookup d k = some v) :
    alookup (d ++ e) k = some v := by
  induction d with
  | nil => cases h
  | cons p rest ih =>
    by_cases hp : p.1 = k
    · simp only [alookup, if_pos hp] at h
      simpa [alookup, hp] using h
    · simp only [alookup, if_neg hp] at h
      simpa [alookup, hp] using ih h

theorem updAssoc_map_fst (d : List (String × String)) (k s : String) :
    (updAssoc d k s).map Prod.fst = d.map Prod.fst := by
  induction d with
  | nil => rfl
  | cons p rest ih =>
    by_cases hp : p.1 = k
    · simp [updAssoc, hp]
    · simp [updAssoc, hp, ih]

theorem alookup_updAssoc_ne {k k' : String} (d : List (String × String)) (s : String)
    (hne : k' ≠ k) : alookup (updAssoc d k s) k' = alookup d k' := by
  induction d with
  | nil => rfl
  | cons p rest ih =>
    by_cases hp : p.1 = k
    · have : ¬ k = k' := fun h => hne h.symm
      simp [updAssoc, alookup, hp, this]
    · by_cases hp' : p.1 = k'
      · simp [updAssoc, alookup, hp, hp', hne]
      · simp [updAssoc, alookup, hp, hp', ih]

theorem alookup_updAssoc_self {d : List (String × String)} {k v : String} (s : String)
    (h : alookup d k = some v) : alookup (updAssoc d k s) k = some (v ++ s) := by
  induction d with
  | nil => cases h
  | cons p rest ih =>
    by_cases hp : p.1 = k
    · simp only [alookup, if_pos hp] at h
      rw [Option.some_inj] at h
      simp [updAssoc, alookup, hp, h]
    · simp only [alookup, if_neg hp] at h
      simp [updAssoc, alookup, hp, ih h]

theorem alookup_updAssoc_isSome (d : List (String × String)) (k s k' : String) :
    (alookup (updAssoc d k s) k').isSome = (alookup d k').isSome := by
  by_cases hne : k' = k
  · subst hne
    rcases h : alookup d k' with _ | v
    · rw [(alookup_eq_none_iff _ _).mpr]
      rw [updAssoc_map_fst]
      exact (alookup_eq_none_iff _ _).mp h
    · simp [alookup_updAssoc_self s h, h]
  · rw [alookup_updAssoc_ne d s hne]

theorem updAssoc_append_of_none {d : List (String × String)} {k : String} (w s : String)
    (h : alookup d k = none) :
    updAssoc (d ++ [(k, w)]) k s = d ++ [(k, w ++ s)] := by
  induction d with
  | nil => simp [updAssoc]
  | cons p rest ih =>
    by_cases hp : p.1 = k
    · simp [alookup, hp] at h
    · simp only [alookup, if_neg hp] at h
      simp [updAssoc, hp, ih h]

theorem runMerge_cons (st : Option MergeState) (line : String) (rest : List String) :
    runMerge st (line :: rest) = runMerge (mergeStep st line) rest := rfl

theorem mergeStep_some (d : List (String × String)) (c : String) (line : String) :
    mergeStep (some ⟨d, c⟩) line =
      if startsGT line = true then
        (if (alookup d (pyRstrip line)).isSome = true then some ⟨d, pyRstrip line⟩
         else some ⟨d ++ [(pyRstrip line, "")], pyRstrip line⟩)
      else
        (if (alookup d c).isSome = true then some ⟨updAssoc d c (pyStrip line), c⟩
         else none) := rfl

theorem runMerge_append (st : Option MergeState) (xs ys : List String) :
    runMerge st (xs ++ ys) = runMerge (runMerge st xs) ys :=
  List.foldl_append mergeStep st xs ys

theorem runMerge_isSome_of_current (lines : List String) :
    ∀ (d : List (String × String)) (c : String), (alookup d c).isSome = true →
      (runMerge (some ⟨d, c⟩) lines).isSome = true := by
  induction lines with
  | nil => intro d c h; simp [runMerge]
  | cons line rest ih =>
    intro d c hc
    rw [runMerge_cons, mergeStep_some]
    by_cases hgt : startsGT line = true
    · rw [if_pos hgt]
      by_cases hs : (alookup d (pyRstrip line)).isSome = true
      · rw [if_pos hs]
        exact ih d (pyRstrip line) hs
      · rw [if_neg hs]
        refine ih _ (pyRstrip line) ?_
        rw [alookup_isSome_iff] at hs ⊢
        simp only [List.map_append, List.map_cons, List.map_nil]
        exact List.mem_append_right _ (List.mem_singleton.mpr rfl)
    · rw [if_neg hgt, if_pos hc]
      refine ih _ c ?_
      rw [alookup_updAssoc_isSome]
      exact hc

/-- C9: `merge_sequences_by_header` is partial at its interface: any line
(including an empty one) before the first header raises (`KeyError` on the
empty-string current header, modelled as `none`); when the first line is a
header the error branch is unreachable and the merge succeeds. -/
theorem C9_merge_partiality :
    (∀ (pre : String) (rest : List String), startsGT pre = false →
        mergeLines (pre :: rest) = none) ∧
    (∀ (l : String) (lines : List String), startsGT l = true →
        (mergeLines (l :: lines)).isSome = true) := by
  constructor
  · intro pre rest hpre
    unfold mergeLines
    rw [runMerge_cons]
    have hstep : mergeStep (some ⟨[], ""⟩) pre = none := by
      rw [mergeStep_some, if_neg (by simp [hpre])]
      rfl
    rw [hstep, runMerge_none]
    rfl
  · intro l lines hl
    unfold mergeLines
    rw [runMerge_cons]
    have hstep : mergeStep (some ⟨[], ""⟩) l = some ⟨[(pyRstrip l, "")], pyRstrip l⟩ := by
      rw [mergeStep_some, if_pos hl]
      rfl
    rw [hstep]
    have hs := runMerge_isSome_of_current lines [(pyRstrip l, "")] (pyRstrip l)
      (by simp [alookup])
    rcases hr : runMerge (some ⟨[(pyRstrip l, "")], pyRstrip l⟩) lines with _ | st
    · rw [hr] at hs; simp at hs
    · rfl

theorem C9_witness :
    (startsGT "" = false ∧ mergeLines ["", ">h"] = none) ∧
    (startsGT ">h" = true ∧ (mergeLines [">h"]).isSome = true) :=
  ⟨⟨by decide, C9_merge_partiality.1 "" [">h"] (by decide)⟩,
   ⟨by decide, C9_merge_partiality.2 ">h" [] (by decide)⟩⟩

/-! ### C1: breakpoint exon selection -/

theorem withDistances_length (b : Bool) :
    ∀ (l : List ExonRow) (acc : Int), (withDistances b acc l).length = l.length := by
  intro l
  induction l with
  | nil => intro acc; rfl
  | cons e rest ih => intro acc; simp [withDistances, ih]

theorem prefixLen_zero (l : List ExonRow) : prefixLen l 0 = 0 := by
  simp [prefixLen]

theorem prefixLen_cons (e : ExonRow) (rest : List ExonRow) (j : Nat) :
    prefixLen (e :: rest) (j + 1) = exonLength e + prefixLen rest j := by
  simp [prefixLen]

theorem withDistances_get (b : Bool) :
    ∀ (l : List ExonRow) (acc : Int) (i : Nat) (h : i < l.length),
      (withDistances b acc l)[i]? =
        some (l[i],
          if b then |acc + prefixLen l i + 1 - l[i].s_start|
          else |acc + prefixLen l (i + 1) - l[i].s_end|) := by
  intro l
  induction l with
  | nil => intro acc i h; cases h
  | cons e rest ih =>
    intro acc i h
    cases i with
    | zero =>
      cases b <;>
        simp [withDistances, prefixLen_zero, prefixLen_cons, prefixLen]
    | succ j =>
      have hj : j < rest.length := by simpa using h
      have : (withDistances b acc (e :: rest))[j + 1]? =
          (withDistances b (acc + exonLength e) rest)[j]? := by
        simp [withDistances]
      rw [this, ih (acc + exonLength e) j hj]
      cases b <;>
        simp only [List.getElem_cons_succ, prefixLen_cons, if_true, if_false,
          Bool.false_eq_true, Option.some.injEq, Prod.mk.injEq, true_and] <;>
        ring_nf

theorem idxminRow_eq_none_iff (l : List (ExonRow × Int)) :
    idxminRow l = none ↔ l = [] := by
  cases l with
  | nil => simp [idxminRow]
  | cons x rest =>
    simp only [idxminRow]
    cases idxminRow rest <;> simp <;> split <;> simp

theorem idxminRow_spec :
    ∀ (l : List (ExonRow × Int)) (s : ExonRow × Int), idxminRow l = some s →
      ∃ (i : Nat) (h : i < l.length), l[i] = s ∧
        (∀ (j : Nat) (hj : j < l.length), j < i → s.2 < l[j].2) ∧
        (∀ (j : Nat) (hj : j < l.length), s.2 ≤ l[j].2) := by
  intro l
  induction l with
  | nil => intro s hs; cases hs
  | cons x rest ih =>
    intro s hs
    rcases hres : idxminRow rest with _ | y
    · have hrest : rest = [] := (idxminRow_eq_none_iff rest).mp hres
      subst hrest
      simp only [idxminRow] at hs
      rw [Option.some_inj] at hs
      subst hs
      refine ⟨0, by simp, rfl, ?_, ?_⟩
      · intro j hj hj0; cases hj0
      · intro j hj
        have hj0 : j = 0 := Nat.lt_one_iff.mp (by simpa using hj)
        subst hj0
        exact le_refl _
    · simp only [idxminRow, hres] at hs
      obtain ⟨i', hi', hgi, hstrict, hmin⟩ := ih y hres
      by_cases hxy : x.2 ≤ y.2
      · rw [if_pos hxy, Option.some_inj] at hs
        subst hs
        refine ⟨0, by simp, rfl, ?_, ?_⟩
        · intro j hj hj0; cases hj0
        · intro j hj
          cases j with
          | zero => exact le_refl _
          | succ j' =>
            have hj' : j' < rest.length := by simpa using hj
            calc x.2 ≤ y.2 := hxy
              _ ≤ rest[j'].2 := hmin j' hj'
      · rw [if_neg hxy, Option.some_inj] at hs
        subst hs
        have hyx : y.2 < x.2 := not_le.mp hxy
        refine ⟨i' + 1, by simpa using hi', by simpa using hgi, ?_, ?_⟩
        · intro j hj hji
          cases j with
          | zero => exact hyx
          | succ j' =>
            have hj' : j' < rest.length := by simpa using hj
            simpa using hstrict j' hj' (Nat.lt_of_succ_lt_succ hji)
        · intro j hj
          cases j with
          | zero => exact le_of_lt hyx
          | succ j' =>
            have hj' : j' < rest.length := by simpa using hj
            simpa using hmin j' hj'

theorem sortGroup_sorted (g : List ExonRow) :
    (sortGroup g).Pairwise (fun a b : ExonRow => a.exon_number ≤ b.exon_number) := by
  haveI : IsTotal ExonRow (fun a b : ExonRow => a.exon_number ≤ b.exon_number) :=
    ⟨fun a b => Nat.le_total _ _⟩
  haveI : IsTrans ExonRow (fun a b : ExonRow => a.exon_number ≤ b.exon_number) :=
    ⟨fun _ _ _ => Nat.le_trans⟩
  exact List.sorted_insertionSort _ g

/-- C1: for every nonempty `(read_id, role)` exon group, the selected
breakpoint exon is a row of the processed group attaining the minimal
`Abs_exon_distance`, every equal-distance row has an exon number at least
as large (ties go to the lowest exon number of the exon-number-sorted
group), and the distance of every row is exactly the claimed formula:
`|cumulative - subject_end|` for role-A groups, where the cumulative is the
running sum of `|start - end|` in exon-number order, and
`|previous cumulative + 1 - subject_start|` for role-B groups (`0` before
the first exon). -/
theorem C1_breakpoint_selection (g : List ExonRow) (hne : g ≠ []) :
    ∃ s, selectBreakpoint g = some s ∧
      s ∈ processGroup g ∧
      (∀ q ∈ processGroup g, s.2 ≤ q.2) ∧
      (∀ q ∈ processGroup g, q.2 = s.2 → s.1.exon_number ≤ q.1.exon_number) ∧
      (∀ (i : Nat) (h : i < (sortGroup g).length),
        (processGroup g)[i]? =
          some ((sortGroup g)[i],
            if groupIsB (sortGroup g) then
              |prefixLen (sortGroup g) i + 1 - ((sortGroup g)[i]).s_start|
            else |prefixLen (sortGroup g) (i + 1) - ((sortGroup g)[i]).s_end|)) := by
  have hlen0 : (sortGroup g).length = g.length :=
    (List.perm_insertionSort _ g).length_eq
  have hplen : (processGroup g).length = (sortGroup g).length := by
    unfold processGroup
    exact withDistances_length _ _ _
  have hpne : processGroup g ≠ [] := by
    intro hemp
    have := congrArg List.length hemp
    rw [hplen, hlen0] at this
    exact hne (List.length_eq_zero.mp this)
  have hform : ∀ (i : Nat) (h : i < (sortGroup g).length),
      (processGroup g)[i]? =
        some ((sortGroup g)[i],
          if groupIsB (sortGroup g) then
            |prefixLen (sortGroup g) i + 1 - ((sortGroup g)[i]).s_start|
          else |prefixLen (sortGroup g) (i + 1) - ((sortGroup g)[i]).s_end|) := by
    intro i h
    have := withDistances_get (groupIsB (sortGroup g)) (sortGroup g) 0 i h
    unfold processGroup
    rw [this]
    cases hb : groupIsB (sortGroup g) <;> simp
  rcases hsel : selectBreakpoint g with _ | s
  · unfold selectBreakpoint at hsel
    exact absurd ((idxminRow_eq_none_iff _).mp hsel) hpne
  · obtain ⟨i, hi, hgi, hstrict, hmin⟩ := idxminRow_spec _ s hsel
    refine ⟨s, rfl, ?_, ?_, ?_, hform⟩
    · rw [← hgi]; exact List.getElem_mem hi
    · intro q hq
      obtain ⟨j, hj, hgj⟩ := List.getElem_of_mem hq
      rw [← hgj]
      exact hmin j hj
    · intro q hq heq
      obtain ⟨j, hj, hgj⟩ := List.getElem_of_mem hq
      have hij : i ≤ j := by
        by_contra hlt
        push_neg at hlt
        have := hstrict j hj hlt
        rw [hgj, heq] at this
        exact lt_irrefl _ this
      have hj' : j < (sortGroup g).length := by rw [← hplen]; exact hj
      have hi' : i < (sortGroup g).length := by rw [← hplen]; exact hi
      have hsfst : s.1 = (sortGroup g)[i] := by
        have h1 := hform i hi'
        have h2 : (processGroup g)[i]? = some (processGroup g)[i] :=
          List.getElem?_eq_getElem hi
        rw [h2, Option.some_inj] at h1
        rw [hgi] at h1
        exact congrArg Prod.fst h1
      have hqfst : q.1 = (sortGroup g)[j] := by
        have h1 := hform j hj'
        have h2 : (processGroup g)[j]? = some (processGroup g)[j] :=
          List.getElem?_eq_getElem hj
        rw [h2, Option.some_inj] at h1
        rw [hgj] at h1
        exact congrArg Prod.fst h1
      rw [hsfst, hqfst]
      rcases Nat.lt_or_ge i j with hlt | hge
      · have hp := (List.pairwise_iff_get.mp (sortGroup_sorted g))
          ⟨i, hi'⟩ ⟨j, hj'⟩ hlt
        simpa using hp
      · have hij' : i = j := Nat.le_antisymm hij hge
        subst hij'
        exact le_refl _

theorem C1_witness :
    (exBpGroup ≠ [] ∧
      Option.map (fun p : ExonRow × Int => (p.1.exon_number, p.2))
        (selectBreakpoint exBpGroup) = some (2, 10)) ∧
    (∃ s, selectBreakpoint exBpGroup = some s ∧
      s ∈ processGroup exBpGroup ∧
      (∀ q ∈ processGroup exBpGroup, s.2 ≤ q.2) ∧
      (∀ q ∈ processGroup exBpGroup, q.2 = s.2 → s.1.exon_number ≤ q.1.exon_number) ∧
      (∀ (i : Nat) (h : i < (sortGroup exBpGroup).length),
        (processGroup exBpGroup)[i]? =
          some ((sortGroup exBpGroup)[i],
            if groupIsB (sortGroup exBpGroup) then
              |prefixLen (sortGroup exBpGroup) i + 1 - ((sortGroup exBpGroup)[i]).s_start|
            else
              |prefixLen (sortGroup exBpGroup) (i + 1) - ((sortGroup exBpGroup)[i]).s_end|))) :=
  ⟨⟨by decide, by decide⟩, C1_breakpoint_selection exBpGroup (by decide)⟩

/-! ### String normalization lemmas for the merge passes -/

theorem dropWhile_head_not {p : Char → Bool} :
    ∀ {l : List Char} {x : Char} {xs : List Char},
      l.dropWhile p = x :: xs → ¬ p x = true := by
  intro l
  induction l with
  | nil => intro x xs h; cases h
  | cons a t ih =>
    intro x xs h
    by_cases hp : p a = true
    · rw [List.dropWhile_cons, if_pos hp] at h
      exact ih h
    · rw [List.dropWhile_cons, if_neg hp] at h
      cases h
      exact hp

theorem dropWhile_dropWhile (p : Char → Bool) (l : List Char) :
    (l.dropWhile p).dropWhile p = l.dropWhile p := by
  rcases h : l.dropWhile p with _ | ⟨x, xs⟩
  · rfl
  · rw [List.dropWhile_cons, if_neg (dropWhile_head_not h)]

theorem dropWhile_suffix_exists (p : Char → Bool) :
    ∀ (l : List Char), ∃ t, t ++ l.dropWhile p = l := by
  intro l
  induction l with
  | nil => exact ⟨[], rfl⟩
  | cons a t ih =>
    by_cases hp : p a = true
    · obtain ⟨u, hu⟩ := ih
      exact ⟨a :: u, by simp [List.dropWhile_cons, hp, hu]⟩
    · exact ⟨[], by simp [List.dropWhile_cons, hp]⟩

theorem head_not_of_dropWhile_eq_self {p : Char → Bool} {x : Char} {t : List Char}
    (h : (x :: t).dropWhile p = x :: t) : ¬ p x = true := by
  by_contra hp
  rw [List.dropWhile_cons, if_pos hp] at h
  have hlen := congrArg List.length h
  have := (List.dropWhile_sublist (l := t) p).length_le
  simp at hlen
  omega

theorem pyStrip_of_parts {s : String} (h1 : s.data.dropWhile pyWS = s.data)
    (h2 : s.data.reverse.dropWhile pyWS = s.data.reverse) : pyStrip s = s := by
  unfold pyStrip
  rw [h1, h2, List.reverse_reverse, string_mk_data]

theorem parts_of_pyStrip {s : String} (h : pyStrip s = s) :
    s.data.dropWhile pyWS = s.data ∧ s.data.reverse.dropWhile pyWS = s.data.reverse := by
  have hdata : (((s.data.dropWhile pyWS).reverse.dropWhile pyWS).reverse) = s.data :=
    congrArg String.data h
  have hlen1 := congrArg List.length hdata
  have hle1 : (s.data.dropWhile pyWS).length ≤ s.data.length :=
    (List.dropWhile_sublist pyWS).length_le
  have hle2 : ((s.data.dropWhile pyWS).reverse.dropWhile pyWS).length ≤
      (s.data.dropWhile pyWS).reverse.length :=
    (List.dropWhile_sublist pyWS).length_le
  simp only [List.length_reverse] at hlen1 hle2
  have hu : s.data.dropWhile pyWS = s.data :=
    (List.dropWhile_sublist pyWS).eq_of_length (by omega)
  refine ⟨hu, ?_⟩
  rw [hu] at hdata
  have : s.data.reverse.dropWhile pyWS = (s.data.reverse.dropWhile pyWS).reverse.reverse := by
    rw [List.reverse_reverse]
  rw [this, hdata]

theorem pyStrip_idem (s : String) : pyStrip (pyStrip s) = pyStrip s := by
  have hdata : (pyStrip s).data =
      ((s.data.dropWhile pyWS).reverse.dropWhile pyWS).reverse := rfl
  apply pyStrip_of_parts
  · rw [hdata]
    rcases hwr : ((s.data.dropWhile pyWS).reverse.dropWhile pyWS).reverse
      with _ | ⟨y, ys⟩
    · rfl
    · obtain ⟨t, ht⟩ := dropWhile_suffix_exists pyWS (s.data.dropWhile pyWS).reverse
      have hurev : s.data.dropWhile pyWS =
          ((s.data.dropWhile pyWS).reverse.dropWhile pyWS).reverse ++ t.reverse := by
        have h2 := congrArg List.reverse ht
        simpa [List.reverse_append] using h2.symm
      have hself : (s.data.dropWhile pyWS).dropWhile pyWS = s.data.dropWhile pyWS :=
        dropWhile_dropWhile pyWS s.data
      rw [hurev, hwr, List.cons_append] at hself
      have hy : ¬ pyWS y = true := head_not_of_dropWhile_eq_self hself
      rw [List.dropWhile_cons, if_neg hy]
  · rw [hdata, List.reverse_reverse]
    exact dropWhile_dropWhile pyWS _

theorem pyStrip_append_inv {a b : String} (ha : pyStrip a = a) (hb : pyStrip b = b) :
    pyStrip (a ++ b) = a ++ b := by
  obtain ⟨ha1, ha2⟩ := parts_of_pyStrip ha
  obtain ⟨hb1, hb2⟩ := parts_of_pyStrip hb
  apply pyStrip_of_parts
  · rw [String.data_append]
    rcases hda : a.data with _ | ⟨x, t⟩
    · try rw [hda]
      simpa using hb1
    · rw [hda] at ha1
      have hx := head_not_of_dropWhile_eq_self ha1
      try rw [hda]
      simp only [List.cons_append, List.dropWhile_cons, if_neg hx]
  · rw [String.data_append, List.reverse_append]
    rcases hbr : b.data.reverse with _ | ⟨z, u⟩
    · try rw [hbr]
      simpa using ha2
    · rw [hbr] at hb2
      have hz := head_not_of_dropWhile_eq_self hb2
      try rw [hbr]
      simp only [List.cons_append, List.dropWhile_cons, if_neg hz]

theorem startsGT_append_false {a b : String} (ha : startsGT a = false)
    (hb : startsGT b = false) : startsGT (a ++ b) = false := by
  unfold startsGT at ha hb ⊢
  rw [String.data_append]
  rcases hda : a.data with _ | ⟨x, t⟩
  · simpa [hda] using hb
  · rw [hda] at ha
    simpa using ha

theorem pyRstrip_idem (s : String) : pyRstrip (pyRstrip s) = pyRstrip s := by
  unfold pyRstrip
  apply string_data_inj
  simp only [List.reverse_reverse]
  rw [dropWhile_dropWhile]

theorem startsGT_mk_cons (c : Char) (l : List Char) :
    startsGT (String.mk (c :: l)) = decide (c = '>') := rfl

theorem startsGT_pyRstrip {s : String} (h : startsGT s = true) :
    startsGT (pyRstrip s) = true := by
  unfold startsGT at h
  rcases hda : s.data with _ | ⟨c, t⟩
  · rw [hda] at h; cases h
  · rw [hda] at h
    have hc : c = '>' := by simpa using h
    subst hc
    have hdata : (pyRstrip s).data = (('>' :: t).reverse.dropWhile pyWS).reverse := by
      unfold pyRstrip; rw [hda]
    have hrev : ('>' :: t).reverse = t.reverse ++ ['>'] := by simp
    rw [hrev, List.dropWhile_append] at hdata
    by_cases he : (t.reverse.dropWhile pyWS).isEmpty
    · rw [if_pos he] at hdata
      have hgt : (['>'] : List Char).dropWhile pyWS = ['>'] := by decide
      rw [hgt] at hdata
      have hmk : pyRstrip s = String.mk ['>'] := by
        apply string_data_inj; rw [hdata]; rfl
      rw [hmk, startsGT_mk_cons]
      decide
    · rw [if_neg he] at hdata
      rw [List.reverse_append] at hdata
      have hmk : pyRstrip s = String.mk ('>' :: (t.reverse.dropWhile pyWS).reverse) := by
        apply string_data_inj; rw [hdata]; rfl
      rw [hmk, startsGT_mk_cons]
      decide

theorem startsGT_empty : startsGT "" = false := rfl

theorem pyStrip_empty : pyStrip "" = "" := rfl

/-! ### Dict invariants of a merge pass -/

theorem mem_updAssoc {d : List (String × String)} {k s : String} :
    ∀ p ∈ updAssoc d k s, p ∈ d ∨ ∃ v, (k, v) ∈ d ∧ p = (k, v ++ s) := by
  induction d with
  | nil => intro p hp; cases hp
  | cons a rest ih =>
    intro p hp
    by_cases ha : a.1 = k
    · rw [show updAssoc (a :: rest) k s = (a.1, a.2 ++ s) :: rest from by
        simp [updAssoc, ha]] at hp
      rcases List.mem_cons.mp hp with rfl | hrest
      · exact Or.inr ⟨a.2, by rw [← ha]; exact ⟨List.mem_cons_self _ _, rfl⟩⟩
      · exact Or.inl (List.mem_cons_of_mem _ hrest)
    · rw [show updAssoc (a :: rest) k s = a :: updAssoc rest k s from by
        simp [updAssoc, ha]] at hp
      rcases List.mem_cons.mp hp with rfl | hrest
      · exact Or.inl (List.mem_cons_self _ _)
      · rcases ih p hrest with hin | ⟨v, hv, heq⟩
        · exact Or.inl (List.mem_cons_of_mem _ hin)
        · exact Or.inr ⟨v, List.mem_cons_of_mem _ hv, heq⟩

theorem goodDict_nil : goodDict [] :=
  ⟨List.nodup_nil, fun p hp => absurd hp (List.not_mem_nil p)⟩

theorem runMerge_goodDict :
    ∀ (lines : List String) (d : List (String × String)) (c : String) (st' : MergeState),
      goodDict d → noHiddenHeader lines = true →
      runMerge (some ⟨d, c⟩) lines = some st' → goodDict st'.data := by
  intro lines
  induction lines with
  | nil =>
    intro d c st' hg _ hrun
    have : (⟨d, c⟩ : MergeState) = st' := by
      have h := hrun
      unfold runMerge at h
      simpa using h
    rw [← this]
    exact hg
  | cons line rest ih =>
    intro d c st' hg hh hrun
    have hh' := hh
    unfold noHiddenHeader at hh'
    rw [List.all_cons, Bool.and_eq_true] at hh'
    obtain ⟨hline, hrest⟩ := hh'
    have hh2 : noHiddenHeader rest = true := hrest
    rw [runMerge_cons, mergeStep_some] at hrun
    by_cases hgt : startsGT line = true
    · rw [if_pos hgt] at hrun
      by_cases hs : (alookup d (pyRstrip line)).isSome = true
      · rw [if_pos hs] at hrun
        exact ih d _ st' hg hh2 hrun
      · rw [if_neg hs] at hrun
        refine ih _ _ st' ⟨?_, ?_⟩ hh2 hrun
        · rw [List.map_append]
          refine List.Nodup.append hg.1 (by simp) ?_
          intro a ha hb
          simp only [List.map_cons, List.map_nil, List.mem_singleton] at hb
          subst hb
          rw [alookup_isSome_iff] at hs
          exact hs ha
        · intro p hp
          rcases List.mem_append.mp hp with hin | hone
          · exact hg.2 p hin
          · have : p = (pyRstrip line, "") := List.mem_singleton.mp hone
            subst this
            exact ⟨startsGT_pyRstrip hgt, pyRstrip_idem line, pyStrip_empty, startsGT_empty⟩
    · rw [if_neg hgt] at hrun
      by_cases hs : (alookup d c).isSome = true
      · rw [if_pos hs] at hrun
        have hstripline : startsGT (pyStrip line) = false := by
          rw [Bool.or_eq_true] at hline
          rcases hline with h1 | h1
          · exact absurd h1 hgt
          · simpa using h1
        refine ih _ _ st' ⟨?_, ?_⟩ hh2 hrun
        · rw [updAssoc_map_fst]
          exact hg.1
        · intro p hp
          rcases mem_updAssoc p hp with hin | ⟨v, hv, heq⟩
          · exact hg.2 p hin
          · subst heq
            obtain ⟨hc1, hc2, hc3, hc4⟩ := hg.2 (c, v) hv
            exact ⟨hc1, hc2, pyStrip_append_inv hc3 (pyStrip_idem line),
              startsGT_append_false hc4 hstripline⟩
      · rw [if_neg hs, runMerge_none] at hrun
        cases hrun

theorem mergeLines_goodDict {lines : List String} {m : List (String × String)}
    (h : mergeLines lines = some m) (hnh : noHiddenHeader lines = true) : goodDict m := by
  unfold mergeLines at h
  rcases hr : runMerge (some ⟨[], ""⟩) lines with _ | st
  · rw [hr] at h; cases h
  · rw [hr] at h
    have hm : st.data = m := by simpa using h
    rw [← hm]
    exact runMerge_goodDict lines [] "" st goodDict_nil hnh hr

/-! ### The second merge pass over a concatenation of rendered dicts -/

theorem renderMerged_cons (k v : String) (rest : List (String × String)) :
    renderMerged ((k, v) :: rest) = k :: v :: renderMerged rest := rfl

theorem runMerge_render_into :
    ∀ (m d : List (String × String)) (c : String),
      (∀ p ∈ m, startsGT p.1 = true ∧ pyRstrip p.1 = p.1 ∧
        pyStrip p.2 = p.2 ∧ startsGT p.2 = false) →
      ∃ c', runMerge (some ⟨d, c⟩) (renderMerged m) = some ⟨mergeInto d m, c'⟩ := by
  intro m
  induction m with
  | nil => intro d c _; exact ⟨c, rfl⟩
  | cons p rest ih =>
    intro d c hprops
    obtain ⟨k, v⟩ := p
    obtain ⟨hk1, hk2, hv1, hv2⟩ := hprops (k, v) (List.mem_cons_self _ _)
    have hrestp : ∀ q ∈ rest, startsGT q.1 = true ∧ pyRstrip q.1 = q.1 ∧
        pyStrip q.2 = q.2 ∧ startsGT q.2 = false :=
      fun q hq => hprops q (List.mem_cons_of_mem _ hq)
    rw [renderMerged_cons, runMerge_cons, mergeStep_some, if_pos hk1, hk2]
    by_cases hs : (alookup d k).isSome = true
    · rw [if_pos hs, runMerge_cons, mergeStep_some, if_neg (by simp [hv2]), if_pos hs,
        hv1]
      have hmi : mergeInto d ((k, v) :: rest) = mergeInto (updAssoc d k v) rest := by
        simp [mergeInto, hs]
      rw [hmi]
      exact ih (updAssoc d k v) k hrestp
    · have hnone : alookup d k = none := by
        rcases ha : alookup d k with _ | w
        · rfl
        · rw [ha] at hs; simp at hs
      rw [if_neg hs, runMerge_cons, mergeStep_some, if_neg (by simp [hv2])]
      have hs2 : (alookup (d ++ [(k, "")]) k).isSome = true := by
        rw [alookup_append_of_none _ hnone]
        simp [alookup]
      rw [if_pos hs2]
      have hupd : updAssoc (d ++ [(k, "")]) k (pyStrip v) = d ++ [(k, pyStrip v)] := by
        rw [updAssoc_append_of_none _ _ hnone, string_empty_append]
      rw [hupd, hv1]
      have hmi : mergeInto d ((k, v) :: rest) = mergeInto (d ++ [(k, v)]) rest := by
        simp [mergeInto, hs]
      rw [hmi]
      exact ih (d ++ [(k, v)]) k hrestp

theorem mergeInto_disjoint :
    ∀ (m d : List (String × String)),
      (∀ k ∈ m.map Prod.fst, alookup d k = none) → (m.map Prod.fst).Nodup →
      mergeInto d m = d ++ m := by
  intro m
  induction m with
  | nil => intro d _ _; simp [mergeInto]
  | cons p rest ih =>
    intro d hdisj hnd
    obtain ⟨k, v⟩ := p
    have hk : alookup d k = none := hdisj k (by simp)
    have hknotin : k ∉ rest.map Prod.fst := by
      have := hnd
      simp only [List.map_cons, List.nodup_cons] at this
      exact this.1
    have hmi : mergeInto d ((k, v) :: rest) = mergeInto (d ++ [(k, v)]) rest := by
      simp [mergeInto, hk]
    rw [hmi, ih (d ++ [(k, v)])]
    · simp
    · intro k' hk'
      rw [alookup_append_of_none _ (hdisj k' (List.mem_cons_of_mem _ hk'))]
      have hne : k ≠ k' := fun h => hknotin (h ▸ hk')
      simp [alookup, hne]
    · simp only [List.map_cons, List.nodup_cons] at hnd
      exact hnd.2

theorem alookup_mergeInto_not_mem :
    ∀ (m d : List (String × String)) (h : String), h ∉ m.map Prod.fst →
      alookup (mergeInto d m) h = alookup d h := by
  intro m
  induction m with
  | nil => intro d h _; rfl
  | cons p rest ih =>
    intro d h hnm
    obtain ⟨k, v⟩ := p
    have hne : h ≠ k := by
      intro heq
      exact hnm (by simp [heq])
    have hnm' : h ∉ rest.map Prod.fst := fun hmem => hnm (List.mem_cons_of_mem _ hmem)
    by_cases hs : (alookup d k).isSome = true
    · rw [show mergeInto d ((k, v) :: rest) = mergeInto (updAssoc d k v) rest from by
        simp [mergeInto, hs]]
      rw [ih _ h hnm', alookup_updAssoc_ne _ _ hne]
    · rw [show mergeInto d ((k, v) :: rest) = mergeInto (d ++ [(k, v)]) rest from by
        simp [mergeInto, hs]]
      rw [ih _ h hnm']
      rcases ha : alookup d h with _ | w
      · rw [alookup_append_of_none _ ha]
        simp [alookup, Ne.symm hne]
      · rw [alookup_append_of_some _ ha]

theorem alookup_mergeInto_both :
    ∀ (m d : List (String × String)) (h vA vB : String),
      alookup d h = some vA → alookup m h = some vB → (m.map Prod.fst).Nodup →
      alookup (mergeInto d m) h = some (vA ++ vB) := by
  intro m
  induction m with
  | nil => intro d h vA vB _ hB _; cases hB
  | cons p rest ih =>
    intro d h vA vB hA hB hnd
    obtain ⟨k, v⟩ := p
    simp only [List.map_cons, List.nodup_cons] at hnd
    by_cases hk : k = h
    · subst hk
      have hvB : v = vB := by
        simpa [alookup] using hB
      subst hvB
      have hs : (alookup d k).isSome = true := by rw [hA]; rfl
      rw [show mergeInto d ((k, v) :: rest) = mergeInto (updAssoc d k v) rest from by
        simp [mergeInto, hs]]
      rw [alookup_mergeInto_not_mem rest _ k hnd.1]
      exact alookup_updAssoc_self v hA
    · have hB' : alookup rest h = some vB := by
        simpa [alookup, hk] using hB
      by_cases hs : (alookup d k).isSome = true
      · rw [show mergeInto d ((k, v) :: rest) = mergeInto (updAssoc d k v) rest from by
          simp [mergeInto, hs]]
        refine ih _ h vA vB ?_ hB' hnd.2
        rw [alookup_updAssoc_ne _ _ (fun heq => hk heq.symm)]
        exact hA
      · rw [show mergeInto d ((k, v) :: rest) = mergeInto (d ++ [(k, v)]) rest from by
          simp [mergeInto, hs]]
        exact ih _ h vA vB (alookup_append_of_some _ hA) hB' hnd.2

/-- C8: for every read id with both a role-A and a role-B merged partial
sequence, the second merge pass over the concatenation (role-A file first,
as `cat geneA_collapsed geneB_collapsed` produces it) assigns the read the
role-A partial sequence immediately followed by the role-B partial
sequence. -/
theorem C8_role_A_precedes_B (fA fB : List String) (mA mB : List (String × String))
    (h vA vB : String)
    (hA : mergeLines fA = some mA) (hB : mergeLines fB = some mB)
    (hnA : noHiddenHeader fA = true) (hnB : noHiddenHeader fB = true)
    (hvA : alookup mA h = some vA) (hvB : alookup mB h = some vB) :
    mergeMultistep fA fB = some (mergeInto mA mB) ∧
    alookup (mergeInto mA mB) h = some (vA ++ vB) := by
  have hgA := mergeLines_goodDict hA hnA
  have hgB := mergeLines_goodDict hB hnB
  constructor
  · unfold mergeMultistep
    rw [hA, hB]
    show mergeLines (renderMerged mA ++ renderMerged mB) = some (mergeInto mA mB)
    unfold mergeLines
    rw [runMerge_append]
    obtain ⟨c1, hc1⟩ := runMerge_render_into mA [] "" hgA.2
    rw [hc1]
    have hmA : mergeInto [] mA = mA := by
      rw [mergeInto_disjoint mA [] (fun k _ => rfl) hgA.1]
      exact List.nil_append mA
    rw [hmA]
    obtain ⟨c2, hc2⟩ := runMerge_render_into mB mA c1 hgB.2
    rw [hc2]
    rfl
  · exact alookup_mergeInto_both mB mA h vA vB hvA hvB hgB.1

theorem C8_witness :
    mergeMultistep [">r", "AAA"] [">r", "CCC"] =
        some (mergeInto [(">r", "AAA")] [(">r", "CCC")]) ∧
    alookup (mergeInto [(">r", "AAA")] [(">r", "CCC")]) ">r" = some ("AAA" ++ "CCC") :=
  C8_role_A_precedes_B [">r", "AAA"] [">r", "CCC"] [(">r", "AAA")] [(">r", "CCC")]
    ">r" "AAA" "CCC" (by decide) (by decide) (by decide) (by decide) (by decide)
    (by decide)

/-! ### C7: idempotence and order preservation of the merge -/

theorem distinctByAux_congr_seen {α β : Type} [DecidableEq β] (key : α → β) :
    ∀ (l : List α) (s1 s2 : List β), (∀ b, b ∈ s1 ↔ b ∈ s2) →
      distinctByAux key s1 l = distinctByAux key s2 l := by
  intro l
  induction l with
  | nil => intro s1 s2 _; rfl
  | cons a t ih =>
    intro s1 s2 hiff
    by_cases h : key a ∈ s1
    · rw [show distinctByAux key s1 (a :: t) = distinctByAux key s1 t from by
        simp [distinctByAux, h]]
      rw [show distinctByAux key s2 (a :: t) = distinctByAux key s2 t from by
        simp [distinctByAux, (hiff (key a)).mp h]]
      exact ih s1 s2 hiff
    · have h2 : key a ∉ s2 := fun hm => h ((hiff (key a)).mpr hm)
      rw [show distinctByAux key s1 (a :: t) = a :: distinctByAux key (key a :: s1) t from by
        simp [distinctByAux, h]]
      rw [show distinctByAux key s2 (a :: t) = a :: distinctByAux key (key a :: s2) t from by
        simp [distinctByAux, h2]]
      rw [ih (key a :: s1) (key a :: s2) (by intro b; simp [hiff b])]

theorem runMerge_keys :
    ∀ (lines : List String) (d : List (String × String)) (c : String) (st' : MergeState),
      runMerge (some ⟨d, c⟩) lines = some st' →
      st'.data.map Prod.fst =
        d.map Prod.fst ++
          distinctByAux id (d.map Prod.fst) ((lines.filter startsGT).map pyRstrip) := by
  intro lines
  induction lines with
  | nil =>
    intro d c st' hrun
    have hst : (⟨d, c⟩ : MergeState) = st' := by
      unfold runMerge at hrun
      simpa using hrun
    rw [← hst]
    simp [distinctByAux]
  | cons line rest ih =>
    intro d c st' hrun
    rw [runMerge_cons, mergeStep_some] at hrun
    by_cases hgt : startsGT line = true
    · rw [if_pos hgt] at hrun
      rw [show (line :: rest).filter startsGT = line :: rest.filter startsGT from by
        simp [List.filter_cons, hgt]]
      rw [List.map_cons]
      by_cases hs : (alookup d (pyRstrip line)).isSome = true
      · rw [if_pos hs] at hrun
        have hmem : pyRstrip line ∈ d.map Prod.fst := (alookup_isSome_iff _ _).mp hs
        rw [show distinctByAux id (d.map Prod.fst)
            (pyRstrip line :: (rest.filter startsGT).map pyRstrip) =
            distinctByAux id (d.map Prod.fst) ((rest.filter startsGT).map pyRstrip) from by
          simp [distinctByAux, hmem]]
        exact ih d _ st' hrun
      · rw [if_neg hs] at hrun
        have hmem : pyRstrip line ∉ d.map Prod.fst := by
          intro hm
          exact hs ((alookup_isSome_iff _ _).mpr hm)
        have hK := ih _ _ st' hrun
        rw [hK]
        rw [show distinctByAux id (d.map Prod.fst)
            (pyRstrip line :: (rest.filter startsGT).map pyRstrip) =
            pyRstrip line ::
              distinctByAux id (pyRstrip line :: d.map Prod.fst)
                ((rest.filter startsGT).map pyRstrip) from by
          simp [distinctByAux, hmem]]
        rw [show (d ++ [(pyRstrip line, "")]).map Prod.fst =
            d.map Prod.fst ++ [pyRstrip line] from by simp]
        rw [distinctByAux_congr_seen id _ (d.map Prod.fst ++ [pyRstrip line])
          (pyRstrip line :: d.map Prod.fst) (by intro b; simp; tauto)]
        simp
    · rw [if_neg hgt] at hrun
      rw [show (line :: rest).filter startsGT = rest.filter startsGT from by
        simp [List.filter_cons, hgt]]
      by_cases hs : (alookup d c).isSome = true
      · rw [if_pos hs] at hrun
        have hK := ih _ _ st' hrun
        rw [updAssoc_map_fst] at hK
        exact hK
      · rw [if_neg hs, runMerge_none] at hrun
        cases hrun

theorem runMerge_render_norm :
    ∀ (pairs d : List (String × String)) (c : String),
      (∀ p ∈ pairs, startsGT p.1 = true ∧ startsGT p.2 = false) →
      (∀ p ∈ pairs, alookup d (pyRstrip p.1) = none) →
      ((pairs.map (fun p => pyRstrip p.1)).Nodup) →
      ∃ c', runMerge (some ⟨d, c⟩) (renderMerged pairs) =
        some ⟨d ++ pairs.map (fun p => (pyRstrip p.1, pyStrip p.2)), c'⟩ := by
  intro pairs
  induction pairs with
  | nil =>
    intro d c _ _ _
    exact ⟨c, by simp [renderMerged, runMerge]⟩
  | cons p rest ih =>
    intro d c hgt hdisj hnd
    obtain ⟨k, v⟩ := p
    obtain ⟨hk1, hv2⟩ := hgt (k, v) (List.mem_cons_self _ _)
    have hdk : alookup d (pyRstrip k) = none := hdisj (k, v) (List.mem_cons_self _ _)
    simp only [List.map_cons, List.nodup_cons] at hnd
    rw [renderMerged_cons, runMerge_cons, mergeStep_some, if_pos hk1,
      if_neg (by simp [hdk]), runMerge_cons, mergeStep_some, if_neg (by simp [hv2])]
    have hs2 : (alookup (d ++ [(pyRstrip k, "")]) (pyRstrip k)).isSome = true := by
      rw [alookup_append_of_none _ hdk]
      simp [alookup]
    rw [if_pos hs2, updAssoc_append_of_none _ _ hdk, string_empty_append]
    obtain ⟨c', hc'⟩ := ih (d ++ [(pyRstrip k, pyStrip v)]) (pyRstrip k)
      (fun q hq => hgt q (List.mem_cons_of_mem _ hq))
      (by
        intro q hq
        rw [alookup_append_of_none _ (hdisj q (List.mem_cons_of_mem _ hq))]
        have hne : pyRstrip k ≠ pyRstrip q.1 := by
          intro heq
          exact hnd.1 (heq ▸ List.mem_map_of_mem (fun p => pyRstrip p.1) hq)
        simp [alookup, hne])
      hnd.2
    rw [hc']
    exact ⟨c', by rw [List.append_assoc]; rfl⟩

theorem renderMerged_map_norm :
    ∀ (pairs : List (String × String)),
      (∀ p ∈ pairs, startsGT p.1 = true ∧ startsGT p.2 = false) →
      renderMerged (pairs.map (fun p => (pyRstrip p.1, pyStrip p.2))) =
        (renderMerged pairs).map normLine := by
  intro pairs
  induction pairs with
  | nil => intro _; rfl
  | cons p rest ih =>
    intro h
    obtain ⟨k, v⟩ := p
    obtain ⟨hk1, hv2⟩ := h (k, v) (List.mem_cons_self _ _)
    rw [List.map_cons, renderMerged_cons, renderMerged_cons, List.map_cons,
      List.map_cons, ih (fun q hq => h q (List.mem_cons_of_mem _ hq))]
    unfold normLine
    rw [if_pos hk1, if_neg (by simp [hv2])]

theorem C7_counterexample :
    mergeFile [">h", " >x"] = some [">h", ">x"] ∧
    mergeFile [">h", ">x"] = some [">h", "", ">x", ""] ∧
    ([">h", "", ">x", ""] : List String) ≠ [">h", ">x"] :=
  ⟨by decide, by decide, by decide⟩

/-- C7 (amended): (1) merging a file with exactly one sequence line per
distinct header is a no-op up to line normalization; (2) the merged output
lists headers in their first-encounter order; (3) re-merging an
already-merged output is the identity for every input whose sequence lines
do not strip to header-like lines (a sequence line whose stripped form
begins with a forgotten `>` breaks idempotence, as the counterexample
shows). -/
theorem C7_merge_normalization :
    (∀ (pairs : List (String × String)),
      (∀ p ∈ pairs, startsGT p.1 = true ∧ startsGT p.2 = false) →
      ((pairs.map (fun p => pyRstrip p.1)).Nodup) →
      mergeFile (renderMerged pairs) = some ((renderMerged pairs).map normLine)) ∧
    (∀ (F : List String) (m : List (String × String)), mergeLines F = some m →
      m.map Prod.fst = distinctFirst ((F.filter startsGT).map pyRstrip)) ∧
    (∀ (F : List String) (m : List (String × String)), mergeLines F = some m →
      noHiddenHeader F = true → mergeLines (renderMerged m) = some m) := by
  refine ⟨?_, ?_, ?_⟩
  · intro pairs hprops hnd
    unfold mergeFile mergeLines
    obtain ⟨c', hc'⟩ := runMerge_render_norm pairs [] "" hprops (fun p _ => rfl) hnd
    rw [hc']
    simp only [List.nil_append, Option.map_some']
    rw [renderMerged_map_norm pairs hprops]
  · intro F m hF
    unfold mergeLines at hF
    rcases hr : runMerge (some ⟨[], ""⟩) F with _ | st
    · rw [hr] at hF; cases hF
    · rw [hr] at hF
      have hm : st.data = m := by simpa using hF
      have hK := runMerge_keys F [] "" st hr
      rw [hm] at hK
      simpa [distinctFirst, distinctBy] using hK
  · intro F m hF hnh
    have hg := mergeLines_goodDict hF hnh
    unfold mergeLines
    obtain ⟨c', hc'⟩ := runMerge_render_into m [] "" hg.2
    rw [hc']
    have hmA : mergeInto [] m = m := by
      rw [mergeInto_disjoint m [] (fun k _ => rfl) hg.1]
      exact List.nil_append m
    rw [hmA]
    rfl

theorem C7_witness :
    ((∀ p ∈ ([(">h", "AC")] : List (String × String)),
        startsGT p.1 = true ∧ startsGT p.2 = false) ∧
      noHiddenHeader [">h", "AC"] = true ∧ mergeLines [">h", "AC"] = some [(">h", "AC")]) ∧
    mergeFile (renderMerged [(">h", "AC")]) =
        some ((renderMerged [(">h", "AC")]).map normLine) ∧
    ([(">h", "AC")] : List (String × String)).map Prod.fst =
        distinctFirst (([">h", "AC"].filter startsGT).map pyRstrip) ∧
    mergeLines (renderMerged [(">h", "AC")]) = some [(">h", "AC")] :=
  ⟨⟨by decide, by decide, by decide⟩,
   C7_merge_normalization.1 [(">h", "AC")] (by decide) (by decide),
   C7_merge_normalization.2.1 [">h", "AC"] [(">h", "AC")] (by decide),
   C7_merge_normalization.2.2 [">h", "AC"] [(">h", "AC")] (by decide) (by decide)⟩

/-! ### C4: role completeness of the retention step -/

theorem string_data_push (s : String) (c : Char) : (s.push c).data = s.data ++ [c] := by
  cases s; rfl

theorem string_push_inj {s1 s2 : String} {c1 c2 : Char} (h : s1.push c1 = s2.push c2) :
    s1 = s2 ∧ c1 = c2 := by
  have hd : s1.data ++ [c1] = s2.data ++ [c2] := by
    have := congrArg String.data h
    rwa [string_data_push, string_data_push] at this
  obtain ⟨h1, h2⟩ := List.append_inj' hd (by simp)
  exact ⟨string_data_inj h1, by simpa using h2⟩

theorem pickStr_inj {r1 r2 : String} {o1 o2 : Char}
    (h : (r1.push '_').push o1 = (r2.push '_').push o2) : r1 = r2 ∧ o1 = o2 := by
  obtain ⟨h1, h2⟩ := string_push_inj h
  exact ⟨(string_push_inj h1).1, h2⟩

theorem altLabelsFrom_length : ∀ (n : Nat) (c : Char), (altLabelsFrom c n).length = n := by
  intro n
  induction n with
  | zero => intro c; rfl
  | succ m ih => intro c; simp [altLabelsFrom, ih]

theorem orderedResults_map_fst (rows : List BlastRow) :
    (orderedResults rows).map Prod.fst = sortedFinal rows := by
  unfold orderedResults
  exact List.map_fst_zip _ _ (by rw [altLabelsFrom_length])

theorem aggGroup_head (r : SelRow) (grest : List SelRow) (s : SelRow)
    (h : aggGroup (r :: grest) = some s) :
    s.pick = r.pick ∧ s.longgf_order = r.longgf_order ∧
    s.base.read_id = r.base.read_id := by
  simp only [aggGroup, Option.some.injEq] at h
  rw [← h]
  exact ⟨rfl, rfl, rfl⟩

theorem dataSubset_shape (rows : List BlastRow) :
    ∀ s ∈ dataSubset rows,
      s.pick = (s.base.read_id.push '_').push s.longgf_order ∧
      (s.longgf_order = 'A' ∨ s.longgf_order = 'B') := by
  intro s hs
  unfold dataSubset at hs
  rw [List.mem_filterMap] at hs
  obtain ⟨k, _, hagg⟩ := hs
  rcases hgr : (sortRanked rows).filter (fun t => t.pick = k) with _ | ⟨r, grest⟩
  · rw [hgr] at hagg; cases hagg
  · rw [hgr] at hagg
    obtain ⟨hp, ho, hr⟩ := aggGroup_head r grest s hagg
    have hrmem : r ∈ (sortRanked rows).filter (fun t => t.pick = k) := by
      rw [hgr]; exact List.mem_cons_self _ _
    have hrsort : r ∈ sortRanked rows := (List.mem_filter.mp hrmem).1
    have hrmap : r ∈ rows.map addComputed :=
      (List.perm_insertionSort _ _).subset hrsort
    obtain ⟨b, _, hbr⟩ := List.mem_map.mp hrmap
    rw [hp, ho, hr, ← hbr]
    constructor
    · rfl
    · show longgfOrder b = 'A' ∨ longgfOrder b = 'B'
      unfold longgfOrder
      by_cases hg : b.gene = b.geneA
      · exact Or.inl (if_pos hg)
      · exact Or.inr (if_neg hg)

theorem aggGroup_pick (l : List SelRow) (k : String) (s : SelRow)
    (h : aggGroup (l.filter (fun t => t.pick = k)) = some s) : s.pick = k := by
  rcases hgr : l.filter (fun t => t.pick = k) with _ | ⟨r, grest⟩
  · rw [hgr] at h; cases h
  · rw [hgr] at h
    obtain ⟨hp, _, _⟩ := aggGroup_head r grest s h
    have hrmem : r ∈ l.filter (fun t => t.pick = k) := by
      rw [hgr]; exact List.mem_cons_self _ _
    have := (List.mem_filter.mp hrmem).2
    rw [hp]
    exact of_decide_eq_true this

theorem map_pick_filterMap_sublist (f : String → Option SelRow)
    (hf : ∀ k s, f k = some s → s.pick = k) :
    ∀ (keys : List String), ((keys.filterMap f).map SelRow.pick).Sublist keys := by
  intro keys
  induction keys with
  | nil => simp
  | cons k rest ih =>
    rw [List.filterMap_cons]
    rcases hfk : f k with _ | s
    · exact ih.cons k
    · rw [List.map_cons, hf k s hfk]
      exact ih.cons₂ k

theorem dataSubset_picks_nodup (rows : List BlastRow) :
    ((dataSubset rows).map SelRow.pick).Nodup := by
  unfold dataSubset
  refine (map_pick_filterMap_sublist _ ?_ _).nodup ?_
  · intro k s hks
    exact aggGroup_pick (sortRanked rows) k s hks
  · refine ((List.perm_insertionSort _ _).nodup_iff).mpr ?_
    have := distinctByAux_key_nodup (id : String → String)
      ((sortRanked rows).map SelRow.pick) []
    simpa [distinctFirst, distinctBy] using this.1

/-- C4: every read id present in the final Phase-3 output has both a
role-A and a role-B selected row; a read id for which only one role's
transcript was selected does not survive the retention step. -/
theorem C4_role_completeness (rows : List BlastRow) (rid : String)
    (h : ∃ p ∈ orderedResults rows, p.1.base.read_id = rid) :
    (∃ p ∈ orderedResults rows, p.1.base.read_id = rid ∧ p.1.longgf_order = 'A') ∧
    (∃ p ∈ orderedResults rows, p.1.base.read_id = rid ∧ p.1.longgf_order = 'B') := by
  obtain ⟨p, hp, hpr⟩ := h
  have hfst : p.1 ∈ sortedFinal rows := by
    have := List.mem_zip hp
    exact this.1
  have hrs : p.1 ∈ removeSingles rows :=
    (List.perm_insertionSort _ _).subset hfst
  have hcount : 2 ≤ (dataSubset rows).countP (fun t => t.base.read_id = rid) := by
    unfold removeSingles at hrs
    have h2 := (List.mem_filter.mp hrs).2
    have h3 := of_decide_eq_true h2
    rwa [hpr] at h3
  have hlen : 2 ≤ ((dataSubset rows).filter
      (fun t => t.base.read_id = rid)).length := by
    rw [← List.countP_eq_length_filter]
    exact hcount
  have hnd : (((dataSubset rows).filter (fun t => t.base.read_id = rid)).map
      SelRow.pick).Nodup :=
    ((List.filter_sublist (dataSubset rows)).map SelRow.pick).nodup
      (dataSubset_picks_nodup rows)
  have hmem_final : ∀ x ∈ (dataSubset rows).filter (fun t => t.base.read_id = rid),
      ∃ q ∈ orderedResults rows, q.1 = x ∧ x.base.read_id = rid := by
    intro x hx
    have hxds : x ∈ dataSubset rows := (List.mem_filter.mp hx).1
    have hxrid : x.base.read_id = rid := of_decide_eq_true (List.mem_filter.mp hx).2
    have hxrs : x ∈ removeSingles rows := by
      unfold removeSingles
      refine List.mem_filter.mpr ⟨hxds, ?_⟩
      rw [decide_eq_true_eq, hxrid]
      exact hcount
    have hxsf : x ∈ sortedFinal rows :=
      ((List.perm_insertionSort _ _).mem_iff).mpr hxrs
    have hxmap : x ∈ (orderedResults rows).map Prod.fst := by
      rw [orderedResults_map_fst]
      exact hxsf
    obtain ⟨q, hq, hqx⟩ := List.mem_map.mp hxmap
    exact ⟨q, hq, hqx, hxrid⟩
  rcases hf : (dataSubset rows).filter (fun t => t.base.read_id = rid)
    with _ | ⟨a, rest1⟩
  · rw [hf] at hlen; simp at hlen
  · rcases hrest : rest1 with _ | ⟨b, rest2⟩
    · rw [hf, hrest] at hlen; simp at hlen
    · have ha : a ∈ (dataSubset rows).filter (fun t => t.base.read_id = rid) := by
        rw [hf]; exact List.mem_cons_self _ _
      have hb : b ∈ (dataSubset rows).filter (fun t => t.base.read_id = rid) := by
        rw [hf, hrest]
        exact List.mem_cons_of_mem _ (List.mem_cons_self _ _)
      have hane : a.pick ≠ b.pick := by
        rw [hf, hrest] at hnd
        simp only [List.map_cons, List.nodup_cons, List.mem_cons] at hnd
        exact fun heq => hnd.1 (Or.inl heq)
      have hads : a ∈ dataSubset rows := (List.mem_filter.mp ha).1
      have hbds : b ∈ dataSubset rows := (List.mem_filter.mp hb).1
      have hard : a.base.read_id = rid := of_decide_eq_true (List.mem_filter.mp ha).2
      have hbrd : b.base.read_id = rid := of_decide_eq_true (List.mem_filter.mp hb).2
      obtain ⟨hsa1, hsa2⟩ := dataSubset_shape rows a hads
      obtain ⟨hsb1, hsb2⟩ := dataSubset_shape rows b hbds
      have horder : a.longgf_order ≠ b.longgf_order := by
        intro heq
        apply hane
        rw [hsa1, hsb1, hard, hbrd, heq]
      obtain ⟨qa, hqa, hqa1, _⟩ := hmem_final a ha
      obtain ⟨qb, hqb, hqb1, _⟩ := hmem_final b hb
      rcases hsa2 with haA | haB
      · rcases hsb2 with hbA | hbB
        · exact absurd (haA.trans hbA.symm) horder
        · exact ⟨⟨qa, hqa, by rw [hqa1]; exact ⟨hard, haA⟩⟩,
            ⟨qb, hqb, by rw [hqb1]; exact ⟨hbrd, hbB⟩⟩⟩
      · rcases hsb2 with hbA | hbB
        · exact ⟨⟨qb, hqb, by rw [hqb1]; exact ⟨hbrd, hbA⟩⟩,
            ⟨qa, hqa, by rw [hqa1]; exact ⟨hard, haB⟩⟩⟩
        · exact absurd (haB.trans hbB.symm) horder

theorem C4_witness :
    (∃ p ∈ orderedResults [exSelA, exSelB, exSelC], p.1.base.read_id = "r") ∧
    ((∃ p ∈ orderedResults [exSelA, exSelB, exSelC],
        p.1.base.read_id = "r" ∧ p.1.longgf_order = 'A') ∧
     (∃ p ∈ orderedResults [exSelA, exSelB, exSelC],
        p.1.base.read_id = "r" ∧ p.1.longgf_order = 'B')) :=
  ⟨by decide, C4_role_completeness [exSelA, exSelB, exSelC] "r" (by decide)⟩

end Typhon
